import Mathlib

set_option maxHeartbeats 1000000
set_option maxRecDepth 8000
set_option linter.unusedVariables false

/-!
Shallow embedding of the 25LC040A SPI EEPROM driver
(`eeprom_25lc040a.cpp` / `eeprom_25lc040a.hpp` / `spi_bit_banging_helper.hpp`).

Machine integers are modelled as `Nat` with explicit `% 2 ^ w` at the points
where the C++ code performs a narrowing cast; unsigned C subtraction `8 - s`
coincides with `Nat` subtraction on the domain `s ≤ 8` used by every theorem
below.  The EEPROM device itself (an external collaborator of the driver) is
modelled as a state machine consuming chip-select-bracketed byte frames with
the chip's READ/WRITE/WREN/RDSR semantics; the field `wipDelay` is the model
parameter "number of polls the write-in-progress flag stays set after a
write commit", and each `delay_us` call lets the device make one unit of
progress.  Every driver operation is translated as a state transformer that
also returns the trace of bus events it performs.
-/

namespace EEPROMSPI

/- Opcodes of the 25LC040A (`enum class Opcode` in the source header). -/
namespace Opcode

def READ : Nat := 0x03

def WRITE : Nat := 0x02

def WREN : Nat := 0x06

def RDSR : Nat := 0x05

end Opcode

/-- Device capacity in bytes (`CAPACITY_BYTES` in the source header). -/
def CAPACITY_BYTES : Nat := 512

/-- Page size of the device (`PAGE_SIZE` in the source header). -/
def PAGE_SIZE : Nat := 16

/-- One observable bus event performed by the driver: chip-select assert /
deassert, one full-duplex byte transfer (tx byte, rx byte), or a
microsecond delay. -/
inductive Ev where
  | csLow : Ev
  | csHigh : Ev
  | xfer : Nat → Nat → Ev
  | delay : Nat → Ev
  deriving DecidableEq

/-- State of the modelled EEPROM device: its 512-byte memory (a total map,
only addresses `< 512` are meaningful), the write-enable latch, the number
of remaining polls during which the WIP status bit still reads 1, the model
parameter `wipDelay` (WIP polls after each write commit), whether chip
select is asserted, and the bytes received since the last chip-select
assert. -/
structure Chip where
  mem : Nat → Nat
  wel : Bool
  wipCount : Nat
  wipDelay : Nat
  selected : Bool
  frame : List Nat

/-- Point update of the device memory map. -/
def updMem (mem : Nat → Nat) (i v : Nat) : Nat → Nat :=
  fun j => if j = i then v else mem j

/-- Page-local address increment of the device during a page write: the
chip wraps inside the 16-byte page instead of advancing across it. -/
def pageNext (a : Nat) : Nat := a / 16 * 16 + (a % 16 + 1) % 16

/-- Commit of a page-write data payload into the device memory, one byte
per cell, with the chip's page-wrap address increment.  Addresses are
reduced mod 512 (9 significant address bits). -/
def writeData : (Nat → Nat) → Nat → List Nat → Nat → Nat
  | mem, _, [] => mem
  | mem, a, d :: rest => writeData (updMem mem (a % 512) (d % 256)) (pageNext a) rest

/-- Byte driven by the device on MISO during one transfer, as a function of
the bytes received so far in the current frame: a READ frame streams memory
with auto-increment, an RDSR frame streams the status byte (bit 0 = WIP),
anything else reads as 0xFF. -/
def chipRx (c : Chip) : Nat :=
  match c.frame with
  | [] => 0xFF
  | op :: rest =>
      if op = Opcode.RDSR then (if c.wipCount = 0 then 0 else 1)
      else if op = Opcode.READ then
        match rest with
        | hi :: lo :: dummies => c.mem ((hi * 256 + lo + dummies.length) % 512)
        | _ => 0xFF
      else 0xFF

/-- Effect of deasserting chip select: the device decodes the completed
frame.  A WREN frame sets the write-enable latch; a WRITE frame with the
latch set commits its data, clears the latch and raises WIP for `wipDelay`
polls; everything else is ignored. -/
def commit (c : Chip) : Chip :=
  if c.frame = [Opcode.WREN] then
    { c with wel := true, selected := false, frame := [] }
  else
    match c.frame with
    | op :: hi :: lo :: data =>
        if op = Opcode.WRITE ∧ c.wel then
          { c with mem := writeData c.mem (hi * 256 + lo) data,
                   wel := false, wipCount := c.wipDelay,
                   selected := false, frame := [] }
        else
          { c with selected := false, frame := [] }
    | _ => { c with selected := false, frame := [] }

/-- Driver primitive `cs_low()` against the device model. -/
def csLowOp (c : Chip) : Chip × List Ev :=
  ({ c with selected := true, frame := [] }, [Ev.csLow])

/-- Driver primitive `cs_high()` against the device model. -/
def csHighOp (c : Chip) : Chip × List Ev :=
  (commit c, [Ev.csHigh])

/-- Byte-level `transferByte` against the device model: the returned byte is
what the device streams out, and the transmitted byte (a `uint8_t` in the
source, hence `% 256`) is appended to the current frame. -/
def transferByteOp (tx : Nat) (c : Chip) : Nat × Chip × List Ev :=
  let rx := chipRx c
  (rx, { c with frame := c.frame ++ [tx % 256] }, [Ev.xfer (tx % 256) rx])

/-- Driver primitive `delay_us(us)`: the device makes one unit of write
progress while the driver blocks. -/
def delayOp (us : Nat) (c : Chip) : Chip × List Ev :=
  ({ c with wipCount := c.wipCount - 1 }, [Ev.delay us])

namespace EEPROM25LC040A

/-- `EEPROM25LC040A::readByte`: CS low, READ opcode, 16-bit big-endian
address, one 0xFF dummy transfer that pumps out the data byte, CS high. -/
def readByte (address : Nat) (c : Chip) : Nat × Chip × List Ev :=
  let p1 := csLowOp c
  let p2 := transferByteOp Opcode.READ p1.1
  let p3 := transferByteOp ((address >>> 8) &&& 0xFF) p2.2.1
  let p4 := transferByteOp (address &&& 0xFF) p3.2.1
  let p5 := transferByteOp 0xFF p4.2.1
  let p6 := csHighOp p5.2.1
  (p5.1, p6.1, p1.2 ++ p2.2.2 ++ p3.2.2 ++ p4.2.2 ++ p5.2.2 ++ p6.2)

/-- `EEPROM25LC040A::writeEnable`: CS low, WREN opcode, CS high. -/
def writeEnable (c : Chip) : Chip × List Ev :=
  let p1 := csLowOp c
  let p2 := transferByteOp Opcode.WREN p1.1
  let p3 := csHighOp p2.2.1
  (p3.1, p1.2 ++ p2.2.2 ++ p3.2)

/-- `EEPROM25LC040A::readStatus`: CS low, RDSR opcode, one dummy transfer
capturing the status byte, CS high. -/
def readStatus (c : Chip) : Nat × Chip × List Ev :=
  let p1 := csLowOp c
  let p2 := transferByteOp Opcode.RDSR p1.1
  let p3 := transferByteOp 0xFF p2.2.1
  let p4 := csHighOp p3.2.1
  (p3.1, p4.1, p1.2 ++ p2.2.2 ++ p3.2.2 ++ p4.2)

/-- `EEPROM25LC040A::waitUntilWriteComplete`: poll `readStatus`, testing the
WIP bit (`status & 0x01`); while it is set, delay 10 microseconds and poll
again.  Termination holds against the device model because each delay makes
the device progress (`wipCount` strictly decreases). -/
def waitUntilWriteComplete (c : Chip) : Chip × List Ev :=
  let p := readStatus c
  if h : p.1 &&& 1 = 0 then
    (p.2.1, p.2.2)
  else
    let q := delayOp 10 p.2.1
    let r := waitUntilWriteComplete q.1
    (r.1, p.2.2 ++ q.2 ++ r.2)
termination_by c.wipCount
decreasing_by
  unfold p at h
  simp only [readStatus, csLowOp, csHighOp, transferByteOp, chipRx, commit, delayOp,
    Opcode.RDSR, Opcode.READ, Opcode.WREN, Opcode.WRITE] at h ⊢
  norm_num at h ⊢
  split at h
  · simp at h
  · omega

/-- `EEPROM25LC040A::writeByte`: writeEnable, then CS low, WRITE opcode,
16-bit big-endian address, data byte, CS high (which commits the write
cycle), then waitUntilWriteComplete. -/
def writeByte (address value : Nat) (c : Chip) : Chip × List Ev :=
  let p0 := writeEnable c
  let p1 := csLowOp p0.1
  let p2 := transferByteOp Opcode.WRITE p1.1
  let p3 := transferByteOp ((address >>> 8) &&& 0xFF) p2.2.1
  let p4 := transferByteOp (address &&& 0xFF) p3.2.1
  let p5 := transferByteOp value p4.2.1
  let p6 := csHighOp p5.2.1
  let p7 := waitUntilWriteComplete p6.1
  (p7.1, p0.2 ++ p1.2 ++ p2.2.2 ++ p3.2.2 ++ p4.2.2 ++ p5.2.2 ++ p6.2 ++ p7.2)

/-- Inner loop of `readArray`: `length` sequential 0xFF dummy transfers
inside the current chip-select assertion, collecting the received bytes. -/
def readChunkGo : Nat → Chip → List Nat × Chip × List Ev
  | 0, c => ([], c, [])
  | k + 1, c =>
    let p := transferByteOp 0xFF c
    let q := readChunkGo k p.2.1
    (p.1 :: q.1, q.2.1, p.2.2 ++ q.2.2)

/-- `EEPROM25LC040A::readArray`: no-op on a null buffer or zero length,
otherwise one READ command followed by `length` dummy transfers inside one
chip-select assertion.  The null destination pointer of the C++ signature
is modelled by the flag `bufferNull`. -/
def readArray (address : Nat) (bufferNull : Bool) (length : Nat) (c : Chip) :
    List Nat × Chip × List Ev :=
  if bufferNull = true ∨ length = 0 then ([], c, [])
  else
    let p1 := csLowOp c
    let p2 := transferByteOp Opcode.READ p1.1
    let p3 := transferByteOp ((address >>> 8) &&& 0xFF) p2.2.1
    let p4 := transferByteOp (address &&& 0xFF) p3.2.1
    let p5 := readChunkGo length p4.2.1
    let p6 := csHighOp p5.2.1
    (p5.1, p6.1, p1.2 ++ p2.2.2 ++ p3.2.2 ++ p4.2.2 ++ p5.2.2 ++ p6.2)

/-- Inner loop of a `writeArray` chunk: transfer `count` source bytes
`buffer[idx]`, `buffer[idx+1]`, ... of the current page chunk. -/
def sendChunkGo (buffer : List Nat) : Nat → Nat → Chip → Chip × List Ev
  | idx, 0, c => (c, [])
  | idx, k + 1, c =>
    let p := transferByteOp (buffer.getD idx 0) c
    let q := sendChunkGo buffer (idx + 1) k p.2.1
    (q.1, p.2.2 ++ q.2)

/-- Page-chunked loop of `EEPROM25LC040A::writeArray`: while bytes remain,
compute `page_offset = address % PAGE_SIZE`, `bytes_in_page = PAGE_SIZE -
page_offset`, `chunk = min(remaining, bytes_in_page)`, perform writeEnable,
one WRITE command carrying the chunk, CS deassert and
waitUntilWriteComplete, then advance `address`, `offset`, `remaining` by
`chunk`. -/
def writeArrayGo (buffer : List Nat) : Nat → Nat → Nat → Chip → Chip × List Ev
  | address, offset, remaining, c =>
    if h : remaining = 0 then (c, [])
    else
      let page_offset := address % PAGE_SIZE
      let bytes_in_page := PAGE_SIZE - page_offset
      let chunk := if remaining < bytes_in_page then remaining else bytes_in_page
      let p0 := writeEnable c
      let p1 := csLowOp p0.1
      let p2 := transferByteOp Opcode.WRITE p1.1
      let p3 := transferByteOp ((address >>> 8) &&& 0xFF) p2.2.1
      let p4 := transferByteOp (address &&& 0xFF) p3.2.1
      let p5 := sendChunkGo buffer offset chunk p4.2.1
      let p6 := csHighOp p5.1
      let p7 := waitUntilWriteComplete p6.1
      let p8 := writeArrayGo buffer (address + chunk) (offset + chunk) (remaining - chunk) p7.1
      (p8.1, p0.2 ++ p1.2 ++ p2.2.2 ++ p3.2.2 ++ p4.2.2 ++ p5.2 ++ p6.2 ++ p7.2 ++ p8.2)
termination_by address offset remaining c => remaining
decreasing_by
  simp only [PAGE_SIZE]
  split <;> omega

/-- `EEPROM25LC040A::writeArray`: no-op on a null buffer (modelled by
`none`) or zero length, otherwise the page-chunked write loop starting at
source offset 0. -/
def writeArray (address : Nat) (buffer : Option (List Nat)) (c : Chip) : Chip × List Ev :=
  match buffer with
  | none => (c, [])
  | some buf =>
      if buf.length = 0 then (c, [])
      else writeArrayGo buf address 0 buf.length c

/-- Byte-walking loop of `EEPROM25LC040A::readBits`, with explicit fuel
embedding the possibly-diverging `while (bits_read < bitCount)` loop:
`none` means the loop did not finish within `fuel` iterations.  Each
iteration reads one byte at `byte_addr`, extracts
`min(8 - start_bit, bitCount - bits_read)` bits through a byte-local mask
and accumulates them into `result` at position `bits_read`. -/
def readBitsGo (bitOffset bitCount : Nat) :
    Nat → Nat → Nat → Nat → Chip → Option Nat × Chip × List Ev
  | fuel, result, bits_read, byte_addr, c =>
    if bits_read < bitCount then
      match fuel with
      | 0 => (none, c, [])
      | fuel + 1 =>
        let p := readByte byte_addr c
        let start_bit := if bits_read = 0 then bitOffset else 0
        let bits_in_byte := min (8 - start_bit) (bitCount - bits_read)
        let mask := (((1 <<< bits_in_byte) - 1) <<< start_bit) % 256
        let val := (p.1 &&& mask) >>> start_bit
        let result2 := result ||| (val <<< bits_read) % 2 ^ 32
        let q := readBitsGo bitOffset bitCount fuel result2 (bits_read + bits_in_byte)
          (byte_addr + 1) p.2.1
        (q.1, q.2.1, p.2.2 ++ q.2.2)
    else (some result, c, [])

/-- `EEPROM25LC040A::readBits`: returns 0 (with no bus activity) if
`bitCount` is 0 or greater than 32, otherwise runs the byte-walking loop
with accumulator 0 starting at `address`. -/
def readBits (address bitOffset bitCount : Nat) (fuel : Nat) (c : Chip) :
    Option Nat × Chip × List Ev :=
  if bitCount = 0 ∨ 32 < bitCount then (some 0, c, [])
  else readBitsGo bitOffset bitCount fuel 0 0 address c

/-- Byte-walking read-modify-write loop of `EEPROM25LC040A::writeBits`,
fuel-embedded like `readBitsGo`; the returned flag is `false` when the
loop did not finish within `fuel` iterations.  Each iteration reads the
byte at `byte_addr`, clears the masked bits, ORs in the matching bits of
`value` and writes the byte back through `writeByte`. -/
def writeBitsGo (bitOffset bitCount value : Nat) :
    Nat → Nat → Nat → Chip → Bool × Chip × List Ev
  | fuel, bits_written, byte_addr, c =>
    if bits_written < bitCount then
      match fuel with
      | 0 => (false, c, [])
      | fuel + 1 =>
        let p := readByte byte_addr c
        let start_bit := if bits_written = 0 then bitOffset else 0
        let bits_in_byte := min (8 - start_bit) (bitCount - bits_written)
        let mask := (((1 <<< bits_in_byte) - 1) <<< start_bit) % 256
        let byte2 := (p.1 &&& (255 ^^^ mask)) |||
          ((((value >>> bits_written) <<< start_bit) % 2 ^ 32) &&& mask)
        let q := writeByte byte_addr byte2 p.2.1
        let r := writeBitsGo bitOffset bitCount value fuel (bits_written + bits_in_byte)
          (byte_addr + 1) q.1
        (r.1, r.2.1, p.2.2 ++ q.2 ++ r.2.2)
    else (true, c, [])

/-- `EEPROM25LC040A::writeBits`: no-op if `bitCount` is 0 or greater than
32, otherwise the read-modify-write loop starting at `address`. -/
def writeBits (address bitOffset bitCount value : Nat) (fuel : Nat) (c : Chip) :
    Bool × Chip × List Ev :=
  if bitCount = 0 ∨ 32 < bitCount then (true, c, [])
  else writeBitsGo bitOffset bitCount value fuel 0 address c

/-- `EEPROM25LC040A::readBit`: wrapper over `readBits` with `bitCount = 1`,
comparing the result against 0. -/
def readBit (address bit : Nat) (fuel : Nat) (c : Chip) : Option Bool × Chip × List Ev :=
  let p := readBits address bit 1 fuel c
  (p.1.map (fun v => v != 0), p.2.1, p.2.2)

/-- `EEPROM25LC040A::writeBit`: wrapper over `writeBits` with
`bitCount = 1` and value 1 or 0. -/
def writeBit (address bit : Nat) (value : Bool) (fuel : Nat) (c : Chip) :
    Bool × Chip × List Ev :=
  writeBits address bit 1 (if value then 1 else 0) fuel c

end EEPROM25LC040A

/-- Abstract bit-banging signal driver (the `SPIBitBangingDriver`
capability): a state type with the MOSI / clock / MISO primitives. -/
structure BitDriver (σ : Type) where
  write_mosi : σ → Bool → σ
  pulse_clock : σ → σ
  read_miso : σ → Bool

namespace SPIBitBangingHelper

/-- Loop body of `SPIBitBangingHelper::transferByte`, iterating the bit
index from 7 down to 0 (`iters` iterations remain, so the current bit index
is `iters - 1`): drive MOSI with the current transmit bit, pulse the clock,
sample MISO and shift it into the receive accumulator.  Besides the
received byte and driver state it returns the sequences of driven MOSI bits
and sampled MISO bits, in order. -/
def transferGo {σ : Type} (d : BitDriver σ) (tx_byte : Nat) :
    Nat → Nat → σ → Nat × σ × List Bool × List Bool
  | 0, rx_byte, s => (rx_byte, s, [], [])
  | iters + 1, rx_byte, s =>
    let bit := iters
    let mosi_value := tx_byte.testBit bit
    let s1 := d.write_mosi s mosi_value
    let s2 := d.pulse_clock s1
    let miso_value := d.read_miso s2
    let rx2 := ((rx_byte <<< 1) ||| (if miso_value then 1 else 0)) % 256
    let q := transferGo d tx_byte iters rx2 s2
    (q.1, q.2.1, mosi_value :: q.2.2.1, miso_value :: q.2.2.2)

/-- `SPIBitBangingHelper::transferByte`: full-duplex MSB-first transfer of
one byte (8 iterations, bit 7 first, accumulator starting at 0). -/
def transferByte {σ : Type} (d : BitDriver σ) (tx_byte : Nat) (s : σ) :
    Nat × σ × List Bool × List Bool :=
  transferGo d tx_byte 8 0 s

end SPIBitBangingHelper

/-- Stub signal driver whose MISO line echoes the last value driven on
MOSI; its state is that last MOSI level. -/
def echoDriver : BitDriver Bool where
  write_mosi := fun _ b => b
  pulse_clock := fun s => s
  read_miso := fun s => s

/-- MSB-first assembly of a list of sampled bits into a number: each new
bit is shifted in from the right. -/
def bitsMSB (l : List Bool) : Nat :=
  l.foldl (fun acc b => 2 * acc + (if b then 1 else 0)) 0

/-- Splits an event trace into command frames: for each chip-select
assert..deassert block, the list of transmitted bytes.  The accumulator is
`some f` while chip select is asserted, and the second component of the
result is the accumulator state after the trace. -/
def framesAcc : List Ev → Option (List Nat) → List (List Nat) × Option (List Nat)
  | [], acc => ([], acc)
  | Ev.csLow :: rest, _ => framesAcc rest (some [])
  | Ev.csHigh :: rest, some f =>
      let p := framesAcc rest none
      (f :: p.1, p.2)
  | Ev.csHigh :: rest, none => framesAcc rest none
  | Ev.xfer tx _ :: rest, some f => framesAcc rest (some (f ++ [tx]))
  | Ev.xfer _ _ :: rest, none => framesAcc rest none
  | Ev.delay _ :: rest, acc => framesAcc rest acc

/-- Command frames of a trace, starting outside any chip-select block. -/
def frames (t : List Ev) : List (List Nat) :=
  (framesAcc t none).1

/-- Recognizes a page-write command frame, returning its 16-bit address
and its data bytes. -/
def parseWrite (f : List Nat) : Option (Nat × List Nat) :=
  match f with
  | op :: hi :: lo :: data => if op = Opcode.WRITE then some (hi * 256 + lo, data) else none
  | _ => none

/-- The page-write command frames of a trace: 16-bit address and data
bytes of every WRITE frame, in order. -/
def writeFrames (t : List Ev) : List (Nat × List Nat) :=
  (frames t).filterMap parseWrite

/-- Chip-select discipline checker: walks the trace tracking whether chip
select is asserted, refusing a `cs_low` while asserted, a `cs_high` or a
byte transfer while deasserted.  Returns the final assertion state, or
`none` on a violation. -/
def csRun : List Ev → Bool → Option Bool
  | [], inside => some inside
  | Ev.csLow :: rest, true => none
  | Ev.csLow :: rest, false => csRun rest true
  | Ev.csHigh :: rest, true => csRun rest false
  | Ev.csHigh :: rest, false => none
  | Ev.xfer _ _ :: rest, true => csRun rest true
  | Ev.xfer _ _ :: rest, false => none
  | Ev.delay _ :: rest, inside => csRun rest inside

/-- Checks that in a frame list every WRITE command frame is immediately
preceded by a complete WREN frame, threading the previous frame. -/
def wrenBeforeWrite : Option (List Nat) → List (List Nat) → Bool
  | _, [] => true
  | prev, f :: rest =>
      ((parseWrite f).isNone || prev == some [Opcode.WREN]) && wrenBeforeWrite (some f) rest

/-- Status bytes observed by the driver: the bytes received during 0xFF
dummy transfers of a trace. -/
def statusReads (t : List Ev) : List Nat :=
  t.filterMap fun e =>
    match e with
    | Ev.xfer tx rx => if tx = 255 then some rx else none
    | _ => none

/-- Number of delay events in a trace. -/
def delayCount (t : List Ev) : Nat :=
  (t.filter fun e =>
    match e with
    | Ev.delay _ => true
    | _ => false).length

/-- Chunk decomposition stated by the specification: while bytes remain,
take `chunk = min(remaining, PAGE_SIZE - address % PAGE_SIZE)` bytes for
one page write at the current address, sourced at the current offset, and
advance address and offset by `chunk`.  Each entry carries the 16-bit
address field of the corresponding WRITE frame and the chunk's bytes. -/
def pageChunkFrames (buffer : List Nat) : Nat → Nat → Nat → List (Nat × List Nat)
  | address, offset, remaining =>
    if h : remaining = 0 then []
    else
      let chunk := min remaining (PAGE_SIZE - address % PAGE_SIZE)
      (address % 65536, ((buffer.map (· % 256)).drop offset).take chunk) ::
        pageChunkFrames buffer (address + chunk) (offset + chunk) (remaining - chunk)
termination_by address offset remaining => remaining
decreasing_by
  simp only [PAGE_SIZE]
  omega

/-- The bytes the device streams out during `k` successive dummy transfers
of a `readArray` call (used to characterize the trace of its inner loop). -/
def readRxs : Nat → Chip → List Nat
  | 0, _ => []
  | k + 1, c => chipRx c :: readRxs k { c with frame := c.frame ++ [255] }

/-- The bytes transmitted by one `writeArray` chunk loop: `count` source
bytes starting at `idx`, each narrowed to a byte as `transferByte` does. -/
def txsList (buffer : List Nat) : Nat → Nat → List Nat
  | idx, 0 => []
  | idx, k + 1 => buffer.getD idx 0 % 256 :: txsList buffer (idx + 1) k

/-- One public driver call, used to state properties of arbitrary call
sequences; the fuel arguments embed the unbounded bit-walking loops. -/
inductive DriverOp where
  | rByte : Nat → DriverOp
  | wByte : Nat → Nat → DriverOp
  | rArray : Nat → Bool → Nat → DriverOp
  | wArray : Nat → Option (List Nat) → DriverOp
  | rBit : Nat → Nat → Nat → DriverOp
  | wBit : Nat → Nat → Bool → Nat → DriverOp
  | rBits : Nat → Nat → Nat → Nat → DriverOp
  | wBits : Nat → Nat → Nat → Nat → Nat → DriverOp

/-- Runs one public driver call against the device model, returning the
final device state and the trace of bus events. -/
def runOp (op : DriverOp) (c : Chip) : Chip × List Ev :=
  match op with
  | DriverOp.rByte a =>
      let p := EEPROM25LC040A.readByte a c
      (p.2.1, p.2.2)
  | DriverOp.wByte a v => EEPROM25LC040A.writeByte a v c
  | DriverOp.rArray a bn len =>
      let p := EEPROM25LC040A.readArray a bn len c
      (p.2.1, p.2.2)
  | DriverOp.wArray a buf => EEPROM25LC040A.writeArray a buf c
  | DriverOp.rBit a bit fuel =>
      let p := EEPROM25LC040A.readBit a bit fuel c
      (p.2.1, p.2.2)
  | DriverOp.wBit a bit v fuel =>
      let p := EEPROM25LC040A.writeBit a bit v fuel c
      (p.2.1, p.2.2)
  | DriverOp.rBits a off n fuel =>
      let p := EEPROM25LC040A.readBits a off n fuel c
      (p.2.1, p.2.2)
  | DriverOp.wBits a off n v fuel =>
      let p := EEPROM25LC040A.writeBits a off n v fuel c
      (p.2.1, p.2.2)

/-- Runs a sequence of public driver calls, concatenating the traces. -/
def runOps : List DriverOp → Chip → Chip × List Ev
  | [], c => (c, [])
  | op :: rest, c =>
    let p := runOp op c
    let q := runOps rest p.1
    (q.1, p.2 ++ q.2)

/-- A concrete initial device state for concrete instantiations: zeroed
memory, latch clear, idle, with a given WIP-poll delay parameter. -/
def chip0 (d : Nat) : Chip :=
  { mem := fun _ => 0, wel := false, wipCount := 0, wipDelay := d,
    selected := false, frame := [] }

/-- Bus events of one status poll (`readStatus`) observing status byte
`s`. -/
def rdsrT (s : Nat) : List Ev :=
  [Ev.csLow, Ev.xfer Opcode.RDSR 0xFF, Ev.xfer 0xFF s, Ev.csHigh]

/-- Bus events of a complete `waitUntilWriteComplete` call that observes
`n` busy polls (status 1, then a 10 microsecond delay) followed by one
final poll reading status 0. -/
def waitTrace : Nat → List Ev
  | 0 => rdsrT 0
  | n + 1 => rdsrT 1 ++ [Ev.delay 10] ++ waitTrace n

/-- Number of bytes spanned by a bit range of `n` bits starting at bit
offset `off` of its first byte. -/
def spanBytes (off n : Nat) : Nat := (off + n + 7) / 8

/-- Memory-level projection of the `readBits` byte-walking loop: identical
iteration structure, acting on the device memory map directly (each
`readByte` returns `mem (byte_addr % 512)` and leaves memory unchanged). -/
def rdGo (mem : Nat → Nat) (bitOffset bitCount : Nat) : Nat → Nat → Nat → Nat → Option Nat
  | fuel, result, bits_read, byte_addr =>
    if bits_read < bitCount then
      match fuel with
      | 0 => none
      | fuel + 1 =>
        let byte := mem (byte_addr % 512)
        let start_bit := if bits_read = 0 then bitOffset else 0
        let bits_in_byte := min (8 - start_bit) (bitCount - bits_read)
        let mask := (((1 <<< bits_in_byte) - 1) <<< start_bit) % 256
        let val := (byte &&& mask) >>> start_bit
        let result2 := result ||| (val <<< bits_read) % 2 ^ 32
        rdGo mem bitOffset bitCount fuel result2 (bits_read + bits_in_byte) (byte_addr + 1)
    else some result

/-- Memory-level projection of the `writeBits` read-modify-write loop:
identical iteration structure, acting on the device memory map directly
(each `writeByte` stores its byte at `byte_addr % 512`). -/
def wrGo (bitOffset bitCount value : Nat) : Nat → Nat → Nat → (Nat → Nat) → Nat → Nat
  | fuel, bits_written, byte_addr, mem =>
    if bits_written < bitCount then
      match fuel with
      | 0 => mem
      | fuel + 1 =>
        let byte := mem (byte_addr % 512)
        let start_bit := if bits_written = 0 then bitOffset else 0
        let bits_in_byte := min (8 - start_bit) (bitCount - bits_written)
        let mask := (((1 <<< bits_in_byte) - 1) <<< start_bit) % 256
        let byte2 := (byte &&& (255 ^^^ mask)) |||
          ((((value >>> bits_written) <<< start_bit) % 2 ^ 32) &&& mask)
        wrGo bitOffset bitCount value fuel (bits_written + bits_in_byte) (byte_addr + 1)
          (updMem mem (byte_addr % 512) (byte2 % 256))
    else mem

/-- The `k` bits of memory starting at byte `addr`, bit 0, assembled
little-endian (first byte gives the least significant bits). -/
def memBits (mem : Nat → Nat) : Nat → Nat → Nat
  | addr, k =>
    if h : k = 0 then 0
    else (mem (addr % 512) &&& (2 ^ min 8 k - 1)) ||| memBits mem (addr + 1) (k - 8) <<< 8
termination_by addr k => k
decreasing_by omega

/-- Writes the low `k` bits of `v` into memory starting at byte `addr`,
bit 0: full bytes, with a partial read-modify-write byte at the end. -/
def wrBytes : Nat → Nat → Nat → (Nat → Nat) → Nat → Nat
  | v, addr, k, mem =>
    if h : k = 0 then mem
    else
      let b := min 8 k
      let cell := addr % 512
      wrBytes (v >>> 8) (addr + 1) (k - 8)
        (updMem mem cell ((mem cell &&& (255 ^^^ (2 ^ b - 1))) ||| (v &&& (2 ^ b - 1))))
termination_by v addr k mem => k
decreasing_by omega

/-- Control flow of the bit-walking loops, which is independent of the
memory contents: whether the loop finishes within `fuel` iterations from
`bits_done` consumed bits.  Each iteration consumes
`min (8 - start_bit) (bitCount - bits_done)` bits. -/
def bitsDone (bitOffset bitCount : Nat) : Nat → Nat → Bool
  | fuel, bits_done =>
    if bits_done < bitCount then
      match fuel with
      | 0 => false
      | fuel + 1 =>
        bitsDone bitOffset bitCount fuel
          (bits_done + min (8 - (if bits_done = 0 then bitOffset else 0)) (bitCount - bits_done))
    else true

/-! Helper lemmas. -/

theorem shiftin_eq (a : Nat) (b : Bool) :
    ((a <<< 1) ||| (if b then 1 else 0)) = 2 * a + (if b then 1 else 0) := by
  cases b
  · simp [Nat.shiftLeft_eq, Nat.mul_comm]
  · simp only [if_true]
    apply Nat.eq_of_testBit_eq
    intro i
    match i with
    | 0 =>
      rw [Nat.testBit_or]
      simp only [Nat.testBit_zero]
      have h1 : a <<< 1 % 2 = 0 := by
        rw [Nat.shiftLeft_eq]; omega
      have h2 : (2 * a + 1) % 2 = 1 := by omega
      simp [h1, h2]
    | j + 1 =>
      rw [Nat.testBit_or, Nat.testBit_add_one, Nat.testBit_add_one, Nat.testBit_add_one]
      have h1 : a <<< 1 / 2 = a := by
        rw [Nat.shiftLeft_eq]; omega
      have h2 : (2 * a + 1) / 2 = a := by omega
      have h3 : (1 : Nat) / 2 = 0 := by omega
      simp [h1, h2, h3]

namespace SPIBitBangingHelper

theorem transferGo_mosi {σ : Type} (d : BitDriver σ) (tx : Nat) :
    ∀ (n : Nat) (rx : Nat) (s : σ),
      (transferGo d tx n rx s).2.2.1 = ((List.range n).reverse).map (fun i => tx.testBit i) := by
  intro n
  induction n with
  | zero => intro rx s; simp [transferGo]
  | succ k ih =>
    intro rx s
    simp [transferGo, ih, List.range_succ]

theorem transferGo_rx {σ : Type} (d : BitDriver σ) (tx : Nat) :
    ∀ (n : Nat) (rx : Nat) (s : σ), n ≤ 8 → rx < 2 ^ (8 - n) →
      (transferGo d tx n rx s).1 =
        (transferGo d tx n rx s).2.2.2.foldl
          (fun acc b => 2 * acc + (if b then 1 else 0)) rx := by
  intro n
  induction n with
  | zero => intro rx s _ _; simp [transferGo]
  | succ k ih =>
    intro rx s hn hrx
    have hstep : ∀ b : Bool, ((rx <<< 1) ||| (if b then 1 else 0)) % 256 =
        2 * rx + (if b then 1 else 0) := by
      intro b
      rw [shiftin_eq]
      apply Nat.mod_eq_of_lt
      have h2 : 2 * rx + 1 < 2 * 2 ^ (8 - (k + 1)) := by
        cases b <;> omega
      have h3 : 2 * 2 ^ (8 - (k + 1)) ≤ 2 ^ 8 := by
        have : 8 - (k + 1) + 1 ≤ 8 := by omega
        calc 2 * 2 ^ (8 - (k + 1)) = 2 ^ (8 - (k + 1) + 1) := by ring
          _ ≤ 2 ^ 8 := Nat.pow_le_pow_right (by omega) this
      cases b <;> simp <;> omega
    have hrx2 : 2 * rx + 1 < 2 ^ (8 - k) := by
      have : 8 - k = (8 - (k + 1)) + 1 := by omega
      rw [this, Nat.pow_succ]
      omega
    simp only [transferGo, hstep]
    rw [ih _ _ (by omega) (by cases d.read_miso (d.pulse_clock (d.write_mosi s (tx.testBit k))) <;>
      simp <;> omega)]
    simp

end SPIBitBangingHelper

theorem readStatus_eq (c : Chip) :
    EEPROM25LC040A.readStatus c =
      (if c.wipCount = 0 then 0 else 1, { c with selected := false, frame := [] },
        rdsrT (if c.wipCount = 0 then 0 else 1)) := rfl

theorem wait_eq : ∀ (n : Nat) (c : Chip), c.wipCount = n →
    EEPROM25LC040A.waitUntilWriteComplete c =
      ({ c with wipCount := 0, selected := false, frame := [] }, waitTrace n) := by
  intro n
  induction n with
  | zero =>
    intro c h
    rw [EEPROM25LC040A.waitUntilWriteComplete]
    simp [readStatus_eq, h, waitTrace]
  | succ k ih =>
    intro c h
    rw [EEPROM25LC040A.waitUntilWriteComplete]
    simp only [readStatus_eq, h]
    norm_num [delayOp]
    rw [ih { c with wipCount := k, selected := false, frame := [] } rfl]
    simp [waitTrace]

theorem statusReads_waitTrace (n : Nat) :
    statusReads (waitTrace n) = List.replicate n 1 ++ [0] := by
  induction n with
  | zero => rfl
  | succ k ih =>
    simp only [waitTrace, statusReads] at *
    simp [List.filterMap_append, ih, List.replicate_succ, rdsrT, Opcode.RDSR]

theorem frames_waitTrace (n : Nat) :
    frames (waitTrace n) = List.replicate (n + 1) [Opcode.RDSR, 0xFF] := by
  induction n with
  | zero => rfl
  | succ k ih =>
    simp only [waitTrace, frames] at *
    simp [framesAcc, rdsrT, ih, List.replicate_succ, Opcode.RDSR]

theorem delayCount_waitTrace (n : Nat) : delayCount (waitTrace n) = n := by
  induction n with
  | zero => rfl
  | succ k ih =>
    simp only [waitTrace, delayCount] at *
    simp [List.filter_append, rdsrT, ih]

/-! Claim theorems: C7. -/

/-- C7: `waitUntilWriteComplete` polls `readStatus`, testing bit 0 (WIP),
delaying 10 microseconds after each non-zero observation, and returns
exactly when WIP first reads zero: against a device observing `wipCount`
busy polls it performs `wipCount + 1` status reads (observing
`wipCount` ones then a zero) and `wipCount` inter-poll delays; for the
stub status sequence [0x01, 0x01, 0x00] (`wipCount = 2`) the trace is
exactly 3 status-poll frames with 2 delays between them. -/
theorem C7_waitUntilWriteComplete_poll_structure (c : Chip) :
    EEPROM25LC040A.waitUntilWriteComplete c =
      ({ c with wipCount := 0, selected := false, frame := [] }, waitTrace c.wipCount) ∧
    statusReads (EEPROM25LC040A.waitUntilWriteComplete c).2 =
      List.replicate c.wipCount 1 ++ [0] ∧
    frames (EEPROM25LC040A.waitUntilWriteComplete c).2 =
      List.replicate (c.wipCount + 1) [Opcode.RDSR, 0xFF] ∧
    delayCount (EEPROM25LC040A.waitUntilWriteComplete c).2 = c.wipCount ∧
    (EEPROM25LC040A.waitUntilWriteComplete { chip0 0 with wipCount := 2 }).2 =
      [Ev.csLow, Ev.xfer 5 255, Ev.xfer 255 1, Ev.csHigh, Ev.delay 10,
        Ev.csLow, Ev.xfer 5 255, Ev.xfer 255 1, Ev.csHigh, Ev.delay 10,
        Ev.csLow, Ev.xfer 5 255, Ev.xfer 255 0, Ev.csHigh] := by
  have h := wait_eq c.wipCount c rfl
  refine ⟨h, ?_, ?_, ?_, ?_⟩
  · rw [h]; exact statusReads_waitTrace _
  · rw [h]; exact frames_waitTrace _
  · rw [h]; exact delayCount_waitTrace _
  · rw [wait_eq 2 _ rfl]; rfl

/-! Closed forms of the byte-level operations. -/

theorem and255_eq_mod (x : Nat) : x &&& 255 = x % 256 := by
  have h : (255 : Nat) = 2 ^ 8 - 1 := by norm_num
  have h2 : (2 : Nat) ^ 8 = 256 := by norm_num
  rw [h, Nat.and_pow_two_sub_one_eq_mod, h2]

theorem frameAddr_eq (a : Nat) :
    ((a >>> 8) % 256 * 256 + a % 256) % 512 = a % 512 := by
  rw [Nat.shiftRight_eq_div_pow]
  have h : (2 : Nat) ^ 8 = 256 := by norm_num
  rw [h]
  omega

theorem writeEnable_eq (c : Chip) :
    EEPROM25LC040A.writeEnable c =
      ({ c with wel := true, selected := false, frame := [] },
        [Ev.csLow, Ev.xfer Opcode.WREN 0xFF, Ev.csHigh]) := rfl

theorem readByte_eq (a : Nat) (c : Chip) :
    EEPROM25LC040A.readByte a c =
      (c.mem (a % 512), { c with selected := false, frame := [] },
        [Ev.csLow, Ev.xfer Opcode.READ 0xFF, Ev.xfer ((a >>> 8) % 256) 0xFF,
          Ev.xfer (a % 256) 0xFF, Ev.xfer 0xFF (c.mem (a % 512)), Ev.csHigh]) := by
  simp only [EEPROM25LC040A.readByte, csLowOp, transferByteOp, csHighOp, chipRx, commit,
    Opcode.READ, Opcode.RDSR, Opcode.WREN, Opcode.WRITE]
  norm_num [and255_eq_mod]
  rw [frameAddr_eq]

theorem writeByte_eq (a v : Nat) (c : Chip) :
    EEPROM25LC040A.writeByte a v c =
      ({ c with
          mem := updMem c.mem (a % 512) (v % 256)
          wel := false
          wipCount := 0
          selected := false
          frame := [] },
        [Ev.csLow, Ev.xfer Opcode.WREN 0xFF, Ev.csHigh,
          Ev.csLow, Ev.xfer Opcode.WRITE 0xFF, Ev.xfer ((a >>> 8) % 256) 0xFF,
          Ev.xfer (a % 256) 0xFF, Ev.xfer (v % 256) 0xFF, Ev.csHigh] ++
          waitTrace c.wipDelay) := by
  simp only [EEPROM25LC040A.writeByte, writeEnable_eq, csLowOp, transferByteOp, csHighOp,
    chipRx, commit, Opcode.READ, Opcode.RDSR, Opcode.WREN, Opcode.WRITE, writeData]
  norm_num [pageNext, updMem, and255_eq_mod]
  rw [wait_eq _ _ rfl]
  norm_num [frameAddr_eq, waitTrace]
  simp [writeData, frameAddr_eq]

/-! Claim theorems: C2. -/

/-- C2: for every address `a < 512` and byte `v < 256`, against the device
model with the chip's READ/WRITE/WREN/RDSR semantics, `writeByte a v`
followed by `readByte a` returns `v`. -/
theorem C2_writeByte_readByte_roundtrip (a v : Nat) (c : Chip)
    (ha : a < 512) (hv : v < 256) :
    (EEPROM25LC040A.readByte a (EEPROM25LC040A.writeByte a v c).1).1 = v := by
  rw [writeByte_eq, readByte_eq]
  simp [updMem, Nat.mod_eq_of_lt hv]

/-- Witness for C2 at the concrete input address 37, value 99. -/
theorem C2_writeByte_readByte_roundtrip_witness :
    (EEPROM25LC040A.readByte 37 (EEPROM25LC040A.writeByte 37 99 (chip0 3)).1).1 = 99 :=
  C2_writeByte_readByte_roundtrip 37 99 (chip0 3) (by norm_num) (by norm_num)

/-! Claim theorems: C5. -/

/-- C5: `transferByte` transmits the 8 bits of its argument MSB-first
(driving MOSI with bit 7 down to bit 0, pulsing the clock, then sampling
MISO each iteration) and assembles the 8 sampled MISO bits MSB-first into
the returned byte; against a driver stub that echoes the last MOSI value
onto MISO, `transferByte x` returns `x` for every byte `x` (including
0x00, 0xFF, and 0xA5). -/
theorem C5_transferByte_msb_first_echo {σ : Type} (d : BitDriver σ) (tx : Nat) (s : σ) :
    (SPIBitBangingHelper.transferByte d tx s).2.2.1 =
      [tx.testBit 7, tx.testBit 6, tx.testBit 5, tx.testBit 4,
        tx.testBit 3, tx.testBit 2, tx.testBit 1, tx.testBit 0] ∧
    (SPIBitBangingHelper.transferByte d tx s).1 =
      bitsMSB (SPIBitBangingHelper.transferByte d tx s).2.2.2 ∧
    (∀ x, x < 256 → (SPIBitBangingHelper.transferByte echoDriver x false).1 = x) := by
  refine ⟨?_, ?_, ?_⟩
  · have h := SPIBitBangingHelper.transferGo_mosi d tx 8 0 s
    simpa [SPIBitBangingHelper.transferByte, List.range_succ] using h
  · exact SPIBitBangingHelper.transferGo_rx d tx 8 0 s (by omega) (by simp)
  · decide

/-! Claim theorems: C6. -/

/-- C6: every invalid-argument call is a silent no-op performing zero bus
operations and leaving the device state unchanged: `readBits` returns 0
and `writeBits` does nothing when `bitCount` is 0 or greater than 32, and
`readArray` / `writeArray` do nothing when the length is 0 or the buffer
is null. -/
theorem C6_invalid_args_silent_noop :
    (∀ a off n fuel c, n = 0 ∨ 32 < n →
      EEPROM25LC040A.readBits a off n fuel c = (some 0, c, [])) ∧
    (∀ a off n v fuel c, n = 0 ∨ 32 < n →
      EEPROM25LC040A.writeBits a off n v fuel c = (true, c, [])) ∧
    (∀ a len c, EEPROM25LC040A.readArray a true len c = ([], c, [])) ∧
    (∀ a bn c, EEPROM25LC040A.readArray a bn 0 c = ([], c, [])) ∧
    (∀ a c, EEPROM25LC040A.writeArray a none c = (c, [])) ∧
    (∀ a c, EEPROM25LC040A.writeArray a (some []) c = (c, [])) := by
  refine ⟨?_, ?_, ?_, ?_, ?_, ?_⟩
  · intro a off n fuel c h
    rcases h with h | h
    · subst h; simp [EEPROM25LC040A.readBits]
    · simp [EEPROM25LC040A.readBits, h]
  · intro a off n v fuel c h
    rcases h with h | h
    · subst h; simp [EEPROM25LC040A.writeBits]
    · simp [EEPROM25LC040A.writeBits, h]
  · intro a len c; simp [EEPROM25LC040A.readArray]
  · intro a bn c; simp [EEPROM25LC040A.readArray]
  · intro a c; rfl
  · intro a c; rfl

/-- Witness for C6: the guards fire at concrete invalid inputs. -/
theorem C6_invalid_args_silent_noop_witness :
    EEPROM25LC040A.readBits 7 3 33 9 (chip0 0) = (some 0, chip0 0, []) ∧
    EEPROM25LC040A.writeBits 7 3 0 12 9 (chip0 0) = (true, chip0 0, []) ∧
    EEPROM25LC040A.readArray 7 true 5 (chip0 0) = ([], chip0 0, []) ∧
    EEPROM25LC040A.writeArray 7 none (chip0 0) = (chip0 0, []) := by
  refine ⟨?_, ?_, ?_, ?_⟩
  · exact C6_invalid_args_silent_noop.1 7 3 33 9 (chip0 0) (by omega)
  · exact C6_invalid_args_silent_noop.2.1 7 3 0 12 9 (chip0 0) (by omega)
  · exact C6_invalid_args_silent_noop.2.2.1 7 5 (chip0 0)
  · exact C6_invalid_args_silent_noop.2.2.2.2.1 7 (chip0 0)

/-! Frames machinery for the page-chunking and command-ordering claims. -/

theorem framesAcc_append (t1 : List Ev) :
    ∀ (t2 : List Ev) (acc : Option (List Nat)),
      framesAcc (t1 ++ t2) acc =
        ((framesAcc t1 acc).1 ++ (framesAcc t2 (framesAcc t1 acc).2).1,
          (framesAcc t2 (framesAcc t1 acc).2).2) := by
  induction t1 with
  | nil => intro t2 acc; simp [framesAcc]
  | cons e rest ih =>
    intro t2 acc
    cases e <;> cases acc <;> simp [framesAcc, ih]

theorem frames_append_closed (t1 t2 : List Ev) (h : (framesAcc t1 none).2 = none) :
    frames (t1 ++ t2) = frames t1 ++ frames t2 := by
  simp [frames, framesAcc_append, h]

theorem framesAcc_xfers (rx : Nat) :
    ∀ (l : List Nat) (rest : List Ev) (f : List Nat),
      framesAcc (l.map (fun b => Ev.xfer b rx) ++ rest) (some f) =
        framesAcc rest (some (f ++ l)) := by
  intro l
  induction l with
  | nil => intro rest f; simp [framesAcc]
  | cons b bs ih =>
    intro rest f
    simp [framesAcc, ih]

theorem framesAcc_waitTrace (n : Nat) :
    framesAcc (waitTrace n) none = (List.replicate (n + 1) [Opcode.RDSR, 0xFF], none) := by
  induction n with
  | zero => rfl
  | succ k ih =>
    simp only [waitTrace, rdsrT]
    simp [framesAcc, ih, List.replicate_succ, Opcode.RDSR]

theorem chipRx_head_write (c : Chip) (h : c.frame.head? = some Opcode.WRITE) :
    chipRx c = 0xFF := by
  rcases hf : c.frame with _ | ⟨op, rest⟩
  · rw [hf] at h; simp at h
  · have hop : op = Opcode.WRITE := by rw [hf] at h; simpa using h
    subst hop
    unfold chipRx
    rw [hf]
    norm_num [Opcode.WRITE, Opcode.RDSR, Opcode.READ]

theorem head_append_of_head (c : List Nat) (l : List Nat) (x : Nat) (h : c.head? = some x) :
    (c ++ l).head? = some x := by
  cases c with
  | nil => simp at h
  | cons a as => simpa using h

theorem sendChunkGo_eq (buffer : List Nat) :
    ∀ (count idx : Nat) (c : Chip), c.frame.head? = some Opcode.WRITE →
      EEPROM25LC040A.sendChunkGo buffer idx count c =
        ({ c with frame := c.frame ++ txsList buffer idx count },
          (txsList buffer idx count).map (fun b => Ev.xfer b 0xFF)) := by
  intro count
  induction count with
  | zero => intro idx c h; simp [EEPROM25LC040A.sendChunkGo, txsList]
  | succ k ih =>
    intro idx c h
    simp only [EEPROM25LC040A.sendChunkGo, transferByteOp, txsList]
    rw [chipRx_head_write c h]
    rw [ih (idx + 1) _ (head_append_of_head _ _ _ h)]
    simp [List.append_assoc]

theorem frameAddr16_eq (a : Nat) :
    (a >>> 8) % 256 * 256 + a % 256 = a % 65536 := by
  rw [Nat.shiftRight_eq_div_pow]
  have h : (2 : Nat) ^ 8 = 256 := by norm_num
  rw [h]
  omega

theorem writeArrayGo_step (buffer : List Nat) (address offset remaining : Nat) (c : Chip)
    (h : remaining ≠ 0) :
    EEPROM25LC040A.writeArrayGo buffer address offset remaining c =
      ((EEPROM25LC040A.writeArrayGo buffer
          (address + min remaining (PAGE_SIZE - address % PAGE_SIZE))
          (offset + min remaining (PAGE_SIZE - address % PAGE_SIZE))
          (remaining - min remaining (PAGE_SIZE - address % PAGE_SIZE))
          { c with
              mem := writeData c.mem (address % 65536)
                (txsList buffer offset (min remaining (PAGE_SIZE - address % PAGE_SIZE)))
              wel := false
              wipCount := 0
              selected := false
              frame := [] }).1,
        [Ev.csLow, Ev.xfer Opcode.WREN 0xFF, Ev.csHigh, Ev.csLow, Ev.xfer Opcode.WRITE 0xFF,
          Ev.xfer ((address >>> 8) % 256) 0xFF, Ev.xfer (address % 256) 0xFF] ++
          (txsList buffer offset (min remaining (PAGE_SIZE - address % PAGE_SIZE))).map
            (fun b => Ev.xfer b 0xFF) ++
          [Ev.csHigh] ++ waitTrace c.wipDelay ++
          (EEPROM25LC040A.writeArrayGo buffer
            (address + min remaining (PAGE_SIZE - address % PAGE_SIZE))
            (offset + min remaining (PAGE_SIZE - address % PAGE_SIZE))
            (remaining - min remaining (PAGE_SIZE - address % PAGE_SIZE))
            { c with
                mem := writeData c.mem (address % 65536)
                  (txsList buffer offset (min remaining (PAGE_SIZE - address % PAGE_SIZE)))
                wel := false
                wipCount := 0
                selected := false
                frame := [] }).2) := by
  rw [EEPROM25LC040A.writeArrayGo]
  rw [dif_neg h]
  have hmin : (if remaining < PAGE_SIZE - address % PAGE_SIZE then remaining
      else PAGE_SIZE - address % PAGE_SIZE) = min remaining (PAGE_SIZE - address % PAGE_SIZE) := by
    split <;> omega
  simp only [writeEnable_eq, csLowOp, transferByteOp, csHighOp, chipRx, commit, hmin]
  rw [sendChunkGo_eq buffer _ _ _ (by norm_num [Opcode.WRITE, Opcode.WREN])]
  simp only [Opcode.WRITE, Opcode.WREN, Opcode.RDSR, Opcode.READ]
  norm_num [and255_eq_mod]
  rw [wait_eq _ _ rfl]
  norm_num [frameAddr16_eq]

theorem txsList_slice (buffer : List Nat) :
    ∀ (count idx : Nat), idx + count ≤ buffer.length →
      txsList buffer idx count = ((buffer.map (· % 256)).drop idx).take count := by
  intro count
  induction count with
  | zero => intro idx h; simp [txsList]
  | succ k ih =>
    intro idx h
    have hidx : idx < buffer.length := by omega
    have hidx2 : idx < (buffer.map (· % 256)).length := by simpa using hidx
    rw [txsList, ih (idx + 1) (by omega), List.drop_eq_getElem_cons hidx2,
      List.take_succ_cons]
    congr 1
    rw [List.getElem_map]
    simp [List.getD_eq_getElem?_getD, List.getElem?_eq_getElem hidx]

theorem frames_chunkTrace (hi lo d : Nat) (txs : List Nat) (rest : List Ev) :
    frames ([Ev.csLow, Ev.xfer Opcode.WREN 0xFF, Ev.csHigh, Ev.csLow,
        Ev.xfer Opcode.WRITE 0xFF, Ev.xfer hi 0xFF, Ev.xfer lo 0xFF] ++
        txs.map (fun b => Ev.xfer b 0xFF) ++ [Ev.csHigh] ++ waitTrace d ++ rest) =
      [Opcode.WREN] :: (Opcode.WRITE :: hi :: lo :: txs) ::
        (List.replicate (d + 1) [Opcode.RDSR, 0xFF] ++ frames rest) := by
  simp only [frames, List.cons_append, List.nil_append, List.append_assoc]
  simp only [framesAcc]
  simp only [framesAcc_xfers]
  simp only [framesAcc]
  rw [framesAcc_append, framesAcc_waitTrace]
  simp [List.append_assoc]

theorem parseWrite_wren : parseWrite [Opcode.WREN] = none := rfl

theorem parseWrite_cmd (hi lo : Nat) (txs : List Nat) :
    parseWrite (Opcode.WRITE :: hi :: lo :: txs) = some (hi * 256 + lo, txs) := by
  simp [parseWrite]

theorem parseWrite_rdsr : parseWrite [Opcode.RDSR, 0xFF] = none := rfl

theorem filterMap_parseWrite_rdsr (n : Nat) :
    (List.replicate n [Opcode.RDSR, 0xFF]).filterMap parseWrite = [] :=
  List.filterMap_replicate_of_none parseWrite_rdsr

theorem count_wren_rdsr (n : Nat) :
    (List.replicate n [Opcode.RDSR, 0xFF]).count [Opcode.WREN] = 0 := by
  rw [List.count_replicate]
  norm_num [Opcode.RDSR, Opcode.WREN]

theorem writeArrayGo_frames :
    ∀ (remaining address offset : Nat) (buffer : List Nat) (c : Chip),
      offset + remaining ≤ buffer.length →
      writeFrames (EEPROM25LC040A.writeArrayGo buffer address offset remaining c).2 =
        pageChunkFrames buffer address offset remaining ∧
      (frames (EEPROM25LC040A.writeArrayGo buffer address offset remaining c).2).count
          [Opcode.WREN] =
        (pageChunkFrames buffer address offset remaining).length := by
  intro remaining
  induction remaining using Nat.strong_induction_on with
  | _ remaining ih =>
    intro address offset buffer c hlen
    by_cases h0 : remaining = 0
    · subst h0
      rw [EEPROM25LC040A.writeArrayGo, pageChunkFrames]
      simp [writeFrames, frames, framesAcc]
    · rw [writeArrayGo_step buffer address offset remaining c h0]
      rw [pageChunkFrames, dif_neg h0]
      have hchunk : min remaining (PAGE_SIZE - address % PAGE_SIZE) ≤ remaining :=
        Nat.min_le_left _ _
      have hlt : remaining - min remaining (PAGE_SIZE - address % PAGE_SIZE) < remaining := by
        have hp : 0 < PAGE_SIZE - address % PAGE_SIZE := by
          simp only [PAGE_SIZE]; omega
        omega
      obtain ⟨ihA, ihB⟩ := ih _ hlt (address + min remaining (PAGE_SIZE - address % PAGE_SIZE))
        (offset + min remaining (PAGE_SIZE - address % PAGE_SIZE)) buffer
        { c with
            mem := writeData c.mem (address % 65536)
              (txsList buffer offset (min remaining (PAGE_SIZE - address % PAGE_SIZE)))
            wel := false
            wipCount := 0
            selected := false
            frame := [] }
        (by omega)
      constructor
      · simp only [writeFrames] at ihA ⊢
        rw [frames_chunkTrace]
        simp only [List.filterMap_cons, parseWrite_wren, parseWrite_cmd,
          List.filterMap_append, filterMap_parseWrite_rdsr]
        simp only [List.nil_append, List.append_nil]
        rw [ihA, frameAddr16_eq,
          txsList_slice buffer (min remaining (PAGE_SIZE - address % PAGE_SIZE)) offset
            (by omega)]
      · rw [frames_chunkTrace]
        simp only [List.count_cons, List.count_append, count_wren_rdsr, ihB]
        have h1 : ([Opcode.WREN] : List Nat) = [Opcode.WREN] := rfl
        have h2 : (Opcode.WRITE :: ((address >>> 8) % 256) :: (address % 256) ::
            txsList buffer offset (min remaining (PAGE_SIZE - address % PAGE_SIZE)) ≠
            ([Opcode.WREN] : List Nat)) := by
          simp [Opcode.WRITE, Opcode.WREN]
        simp [h2, List.length_cons]

theorem pageChunkFrames_boundary (buffer : List Nat) :
    ∀ (remaining address offset : Nat),
      ∀ p ∈ pageChunkFrames buffer address offset remaining,
        p.1 % PAGE_SIZE + p.2.length ≤ PAGE_SIZE := by
  intro remaining
  induction remaining using Nat.strong_induction_on with
  | _ remaining ih =>
    intro address offset
    by_cases h0 : remaining = 0
    · subst h0
      rw [pageChunkFrames]
      simp
    · rw [pageChunkFrames, dif_neg h0]
      intro p hp
      rcases List.mem_cons.mp hp with hp | hp
      · subst hp
        simp only [PAGE_SIZE] at *
        have hmod : address % 65536 % 16 = address % 16 := by omega
        have hlen : (((buffer.map (· % 256)).drop offset).take
            (min remaining (16 - address % 16))).length ≤ min remaining (16 - address % 16) :=
          le_trans (List.length_take_le _ _) (le_refl _)
        simp only [hmod]
        have : 0 < 16 - address % 16 := by omega
        omega
      · have hlt : remaining - min remaining (PAGE_SIZE - address % PAGE_SIZE) < remaining := by
          have hp2 : 0 < PAGE_SIZE - address % PAGE_SIZE := by
            simp only [PAGE_SIZE]; omega
          omega
        exact ih _ hlt _ _ p hp

/-! Claim theorems: C1. -/

/-- C1: for every starting address and non-empty byte sequence,
`writeArray` splits the write into chunks by repeatedly taking
`chunk = min(remaining, PAGE_SIZE - address % PAGE_SIZE)`, issuing for
each chunk one WREN frame and one WRITE frame carrying the current
address (16-bit field) and the chunk's bytes; consequently the WRITE
frames are exactly the page-chunk decomposition, no WRITE frame spans a
16-byte page boundary, and there is exactly one WREN frame per chunk. -/
theorem C1_writeArray_page_chunking (address : Nat) (buffer : List Nat) (c : Chip)
    (hne : buffer ≠ []) :
    writeFrames (EEPROM25LC040A.writeArray address (some buffer) c).2 =
      pageChunkFrames buffer address 0 buffer.length ∧
    (∀ p ∈ writeFrames (EEPROM25LC040A.writeArray address (some buffer) c).2,
      p.1 % PAGE_SIZE + p.2.length ≤ PAGE_SIZE) ∧
    (frames (EEPROM25LC040A.writeArray address (some buffer) c).2).count [Opcode.WREN] =
      (pageChunkFrames buffer address 0 buffer.length).length := by
  have hlen : buffer.length ≠ 0 := by simpa using hne
  have h := writeArrayGo_frames buffer.length address 0 buffer c (by omega)
  have harr : EEPROM25LC040A.writeArray address (some buffer) c =
      EEPROM25LC040A.writeArrayGo buffer address 0 buffer.length c := by
    simp [EEPROM25LC040A.writeArray, hlen]
  rw [harr]
  refine ⟨h.1, ?_, h.2⟩
  rw [h.1]
  exact pageChunkFrames_boundary buffer buffer.length address 0

/-- Witness for C1: writing 20 bytes starting at address 10 issues exactly
two page writes, 6 bytes at address 10 and 14 bytes at address 16. -/
theorem C1_writeArray_page_chunking_witness :
    writeFrames (EEPROM25LC040A.writeArray 10
        (some [100, 101, 102, 103, 104, 105, 106, 107, 108, 109, 110, 111, 112, 113,
          114, 115, 116, 117, 118, 119]) (chip0 0)).2 =
      [(10, [100, 101, 102, 103, 104, 105]),
        (16, [106, 107, 108, 109, 110, 111, 112, 113, 114, 115, 116, 117, 118, 119])] := by
  have h := C1_writeArray_page_chunking 10
    [100, 101, 102, 103, 104, 105, 106, 107, 108, 109, 110, 111, 112, 113,
      114, 115, 116, 117, 118, 119] (chip0 0) (by decide)
  rw [h.1]
  rw [pageChunkFrames]
  norm_num [PAGE_SIZE]
  rw [pageChunkFrames]
  norm_num [PAGE_SIZE]
  rw [pageChunkFrames]
  norm_num

/-! Trace invariants: chip-select bracketing and WREN-before-WRITE,
compositional over arbitrary sequences of public driver calls. -/

theorem csRun_append (t1 : List Ev) :
    ∀ (t2 : List Ev) (b : Bool),
      csRun (t1 ++ t2) b = (csRun t1 b).bind (fun b2 => csRun t2 b2) := by
  induction t1 with
  | nil => intro t2 b; simp [csRun]
  | cons e rest ih =>
    intro t2 b
    cases e <;> cases b <;> simp [csRun, ih]

theorem P1_append (t1 t2 : List Ev) (h1 : (framesAcc t1 none).2 = none)
    (h2 : (framesAcc t2 none).2 = none) : (framesAcc (t1 ++ t2) none).2 = none := by
  rw [framesAcc_append, h1, h2]

theorem wbw_append_t (l1 : List (List Nat)) :
    ∀ (l2 : List (List Nat)) (p : Option (List Nat)), wrenBeforeWrite p l1 = true →
      (∀ q, wrenBeforeWrite q l2 = true) → wrenBeforeWrite p (l1 ++ l2) = true := by
  induction l1 with
  | nil => intro l2 p h1 h2; exact h2 p
  | cons f rest ih =>
    intro l2 p h1 h2
    simp only [wrenBeforeWrite, Bool.and_eq_true] at h1
    simp only [List.cons_append, wrenBeforeWrite, Bool.and_eq_true]
    exact ⟨h1.1, ih l2 (some f) h1.2 h2⟩

theorem wbw_cons_of (f : List Nat) (rest : List (List Nat)) (q : Option (List Nat))
    (hf : (parseWrite f).isNone = true ∨ q = some [Opcode.WREN])
    (hrest : wrenBeforeWrite (some f) rest = true) :
    wrenBeforeWrite q (f :: rest) = true := by
  simp only [wrenBeforeWrite, Bool.and_eq_true]
  refine ⟨?_, hrest⟩
  rcases hf with hf | hf
  · simp [hf]
  · subst hf
    simp

theorem P2_append (t1 t2 : List Ev) (h1 : (framesAcc t1 none).2 = none)
    (w1 : ∀ q, wrenBeforeWrite q (frames t1) = true) (w2 : ∀ q, wrenBeforeWrite q (frames t2) = true) :
    ∀ q, wrenBeforeWrite q (frames (t1 ++ t2)) = true := by
  intro q
  rw [frames_append_closed t1 t2 h1]
  exact wbw_append_t (frames t1) (frames t2) q (w1 q) w2

theorem P3_append (t1 t2 : List Ev) (h1 : csRun t1 false = some false)
    (h2 : csRun t2 false = some false) : csRun (t1 ++ t2) false = some false := by
  rw [csRun_append, h1]
  exact h2

theorem wbw_replicate_rdsr (n : Nat) :
    ∀ q, wrenBeforeWrite q (List.replicate n [Opcode.RDSR, 0xFF]) = true := by
  induction n with
  | zero => intro q; rfl
  | succ k ih =>
    intro q
    simp only [List.replicate_succ, wrenBeforeWrite, parseWrite_rdsr, Bool.and_eq_true]
    exact ⟨by norm_num, ih _⟩

theorem csRun_waitTrace (n : Nat) : csRun (waitTrace n) false = some false := by
  induction n with
  | zero => rfl
  | succ k ih =>
    simp only [waitTrace, rdsrT, List.cons_append, List.nil_append, csRun]
    simpa [csRun] using ih

theorem wait_props (n : Nat) :
    (framesAcc (waitTrace n) none).2 = none ∧
    (∀ q, wrenBeforeWrite q (frames (waitTrace n)) = true) ∧
    csRun (waitTrace n) false = some false := by
  refine ⟨by rw [framesAcc_waitTrace], ?_, csRun_waitTrace n⟩
  intro q
  rw [frames_waitTrace]
  exact wbw_replicate_rdsr (n + 1) q

theorem readByte_props (a : Nat) (c : Chip) :
    (framesAcc (EEPROM25LC040A.readByte a c).2.2 none).2 = none ∧
    (∀ q, wrenBeforeWrite q (frames (EEPROM25LC040A.readByte a c).2.2) = true) ∧
    csRun (EEPROM25LC040A.readByte a c).2.2 false = some false := by
  rw [readByte_eq]
  refine ⟨rfl, ?_, rfl⟩
  intro q
  cases q <;> rfl

theorem writeByte_props (a v : Nat) (c : Chip) :
    (framesAcc (EEPROM25LC040A.writeByte a v c).2 none).2 = none ∧
    (∀ q, wrenBeforeWrite q (frames (EEPROM25LC040A.writeByte a v c).2) = true) ∧
    csRun (EEPROM25LC040A.writeByte a v c).2 false = some false := by
  rw [writeByte_eq]
  have hw := wait_props c.wipDelay
  refine ⟨?_, ?_, ?_⟩
  · exact P1_append _ _ rfl hw.1
  · refine P2_append _ _ rfl ?_ hw.2.1
    intro q
    cases q <;> simp [frames, framesAcc, wrenBeforeWrite, parseWrite, Opcode.WRITE, Opcode.WREN]
  · exact P3_append _ _ rfl hw.2.2

theorem xfersMap_csRun (txs : List Nat) :
    ∀ (rest : List Ev), csRun (txs.map (fun b => Ev.xfer b 0xFF) ++ rest) true =
      csRun rest true := by
  induction txs with
  | nil => intro rest; rfl
  | cons b bs ih => intro rest; simp [csRun, ih]

theorem xfersMapRx_csRun (rxs : List Nat) :
    ∀ (rest : List Ev), csRun (rxs.map (fun rx => Ev.xfer 0xFF rx) ++ rest) true =
      csRun rest true := by
  induction rxs with
  | nil => intro rest; rfl
  | cons b bs ih => intro rest; simp [csRun, ih]

theorem xfersMapRx_framesAcc (rxs : List Nat) :
    ∀ (rest : List Ev) (f : List Nat),
      framesAcc (rxs.map (fun rx => Ev.xfer 0xFF rx) ++ rest) (some f) =
        framesAcc rest (some (f ++ List.replicate rxs.length 255)) := by
  induction rxs with
  | nil => intro rest f; simp
  | cons b bs ih =>
    intro rest f
    simp only [List.map_cons, List.cons_append, framesAcc, List.append_eq]
    rw [ih, List.append_assoc]
    simp [List.replicate_succ]

theorem readChunkGo_trace_eq : ∀ (k : Nat) (c : Chip),
    (EEPROM25LC040A.readChunkGo k c).2.2 = (readRxs k c).map (fun rx => Ev.xfer 0xFF rx) := by
  intro k
  induction k with
  | zero => intro c; rfl
  | succ m ih =>
    intro c
    simp only [EEPROM25LC040A.readChunkGo, transferByteOp, readRxs, List.map_cons]
    simp [ih]

theorem readArray_props (a : Nat) (bn : Bool) (len : Nat) (c : Chip) :
    (framesAcc (EEPROM25LC040A.readArray a bn len c).2.2 none).2 = none ∧
    (∀ q, wrenBeforeWrite q (frames (EEPROM25LC040A.readArray a bn len c).2.2) = true) ∧
    csRun (EEPROM25LC040A.readArray a bn len c).2.2 false = some false := by
  by_cases hg : bn = true ∨ len = 0
  · rw [EEPROM25LC040A.readArray, if_pos hg]
    exact ⟨rfl, fun q => rfl, rfl⟩
  · rw [EEPROM25LC040A.readArray, if_neg hg]
    simp only [csLowOp, transferByteOp, csHighOp, chipRx, List.cons_append, List.nil_append,
      readChunkGo_trace_eq]
    refine ⟨?_, ?_, ?_⟩
    · simp only [frames, framesAcc, xfersMapRx_framesAcc]
    · intro q
      simp only [frames, framesAcc, xfersMapRx_framesAcc]
      simp [wrenBeforeWrite, parseWrite, Opcode.READ, Opcode.WRITE]
    · simp only [csRun, xfersMapRx_csRun]

theorem framesAcc_chunkTrace (hi lo d : Nat) (txs : List Nat) (rest : List Ev) :
    framesAcc ([Ev.csLow, Ev.xfer Opcode.WREN 0xFF, Ev.csHigh, Ev.csLow,
        Ev.xfer Opcode.WRITE 0xFF, Ev.xfer hi 0xFF, Ev.xfer lo 0xFF] ++
        txs.map (fun b => Ev.xfer b 0xFF) ++ [Ev.csHigh] ++ waitTrace d ++ rest) none =
      ([Opcode.WREN] :: (Opcode.WRITE :: hi :: lo :: txs) ::
        (List.replicate (d + 1) [Opcode.RDSR, 0xFF] ++ (framesAcc rest none).1),
        (framesAcc rest none).2) := by
  simp only [List.cons_append, List.nil_append, List.append_assoc]
  simp only [framesAcc]
  simp only [framesAcc_xfers]
  simp only [framesAcc]
  rw [framesAcc_append, framesAcc_waitTrace]
  simp [List.append_assoc]

theorem writeArrayGo_props :
    ∀ (remaining address offset : Nat) (buffer : List Nat) (c : Chip),
      (framesAcc (EEPROM25LC040A.writeArrayGo buffer address offset remaining c).2 none).2 =
        none ∧
      (∀ q, wrenBeforeWrite q
        (frames (EEPROM25LC040A.writeArrayGo buffer address offset remaining c).2) = true) ∧
      csRun (EEPROM25LC040A.writeArrayGo buffer address offset remaining c).2 false =
        some false := by
  intro remaining
  induction remaining using Nat.strong_induction_on with
  | _ remaining ih =>
    intro address offset buffer c
    by_cases h0 : remaining = 0
    · subst h0
      rw [EEPROM25LC040A.writeArrayGo]
      norm_num
      exact ⟨rfl, fun q => rfl, rfl⟩
    · rw [writeArrayGo_step buffer address offset remaining c h0]
      have hlt : remaining - min remaining (PAGE_SIZE - address % PAGE_SIZE) < remaining := by
        have hp : 0 < PAGE_SIZE - address % PAGE_SIZE := by
          simp only [PAGE_SIZE]; omega
        omega
      obtain ⟨ih1, ih2, ih3⟩ := ih _ hlt
        (address + min remaining (PAGE_SIZE - address % PAGE_SIZE))
        (offset + min remaining (PAGE_SIZE - address % PAGE_SIZE)) buffer
        { c with
            mem := writeData c.mem (address % 65536)
              (txsList buffer offset (min remaining (PAGE_SIZE - address % PAGE_SIZE)))
            wel := false
            wipCount := 0
            selected := false
            frame := [] }
      refine ⟨?_, ?_, ?_⟩
      · rw [framesAcc_chunkTrace]
        exact ih1
      · intro q
        rw [frames_chunkTrace]
        refine wbw_cons_of _ _ _ (Or.inl (by rw [parseWrite_wren]; rfl)) ?_
        refine wbw_cons_of _ _ _ (Or.inr rfl) ?_
        exact wbw_append_t _ _ _ (wbw_replicate_rdsr _ _) ih2
      · simp only [List.cons_append, List.nil_append, List.append_eq, List.append_assoc, csRun]
        rw [xfersMap_csRun]
        simp only [List.cons_append, List.nil_append, csRun]
        rw [csRun_append, csRun_waitTrace]
        exact ih3

theorem writeArray_props (a : Nat) (buffer : Option (List Nat)) (c : Chip) :
    (framesAcc (EEPROM25LC040A.writeArray a buffer c).2 none).2 = none ∧
    (∀ q, wrenBeforeWrite q (frames (EEPROM25LC040A.writeArray a buffer c).2) = true) ∧
    csRun (EEPROM25LC040A.writeArray a buffer c).2 false = some false := by
  match buffer with
  | none => exact ⟨rfl, fun q => rfl, rfl⟩
  | some buf =>
    rw [EEPROM25LC040A.writeArray]
    by_cases hb : buf.length = 0
    · rw [if_pos hb]
      exact ⟨rfl, fun q => rfl, rfl⟩
    · rw [if_neg hb]
      exact writeArrayGo_props buf.length a 0 buf c

theorem readBitsGo_props (off n : Nat) :
    ∀ (fuel result br addr : Nat) (c : Chip),
      (framesAcc (EEPROM25LC040A.readBitsGo off n fuel result br addr c).2.2 none).2 = none ∧
      (∀ q, wrenBeforeWrite q
        (frames (EEPROM25LC040A.readBitsGo off n fuel result br addr c).2.2) = true) ∧
      csRun (EEPROM25LC040A.readBitsGo off n fuel result br addr c).2.2 false = some false := by
  intro fuel
  induction fuel with
  | zero =>
    intro result br addr c
    rw [EEPROM25LC040A.readBitsGo]
    split
    · exact ⟨rfl, fun q => rfl, rfl⟩
    · exact ⟨rfl, fun q => rfl, rfl⟩
  | succ m ihm =>
    intro result br addr c
    rw [EEPROM25LC040A.readBitsGo]
    split
    · obtain ⟨h1, h2, h3⟩ := readByte_props addr c
      obtain ⟨g1, g2, g3⟩ := ihm _ _ _ (EEPROM25LC040A.readByte addr c).2.1
      exact ⟨P1_append _ _ h1 g1, P2_append _ _ h1 h2 g2, P3_append _ _ h3 g3⟩
    · exact ⟨rfl, fun q => rfl, rfl⟩

theorem writeBitsGo_props (off n v : Nat) :
    ∀ (fuel bw addr : Nat) (c : Chip),
      (framesAcc (EEPROM25LC040A.writeBitsGo off n v fuel bw addr c).2.2 none).2 = none ∧
      (∀ q, wrenBeforeWrite q
        (frames (EEPROM25LC040A.writeBitsGo off n v fuel bw addr c).2.2) = true) ∧
      csRun (EEPROM25LC040A.writeBitsGo off n v fuel bw addr c).2.2 false = some false := by
  intro fuel
  induction fuel with
  | zero =>
    intro bw addr c
    rw [EEPROM25LC040A.writeBitsGo]
    split
    · exact ⟨rfl, fun q => rfl, rfl⟩
    · exact ⟨rfl, fun q => rfl, rfl⟩
  | succ m ihm =>
    intro bw addr c
    rw [EEPROM25LC040A.writeBitsGo]
    split
    · refine ⟨?_, ?_, ?_⟩
      · exact P1_append _ _
          (P1_append _ _ (readByte_props _ _).1 (writeByte_props _ _ _).1) (ihm _ _ _).1
      · exact P2_append _ _
          (P1_append _ _ (readByte_props _ _).1 (writeByte_props _ _ _).1)
          (P2_append _ _ (readByte_props _ _).1 (readByte_props _ _).2.1
            (writeByte_props _ _ _).2.1)
          (ihm _ _ _).2.1
      · exact P3_append _ _
          (P3_append _ _ (readByte_props _ _).2.2 (writeByte_props _ _ _).2.2)
          (ihm _ _ _).2.2
    · exact ⟨rfl, fun q => rfl, rfl⟩

theorem runOp_props (op : DriverOp) (c : Chip) :
    (framesAcc (runOp op c).2 none).2 = none ∧
    (∀ q, wrenBeforeWrite q (frames (runOp op c).2) = true) ∧
    csRun (runOp op c).2 false = some false := by
  match op with
  | DriverOp.rByte a =>
    obtain ⟨h1, h2, h3⟩ := readByte_props a c
    exact ⟨h1, h2, h3⟩
  | DriverOp.wByte a v =>
    obtain ⟨h1, h2, h3⟩ := writeByte_props a v c
    exact ⟨h1, h2, h3⟩
  | DriverOp.rArray a bn len =>
    obtain ⟨h1, h2, h3⟩ := readArray_props a bn len c
    exact ⟨h1, h2, h3⟩
  | DriverOp.wArray a buf =>
    obtain ⟨h1, h2, h3⟩ := writeArray_props a buf c
    exact ⟨h1, h2, h3⟩
  | DriverOp.rBit a bit fuel =>
    simp only [runOp, EEPROM25LC040A.readBit, EEPROM25LC040A.readBits]
    split
    · exact ⟨rfl, fun q => rfl, rfl⟩
    · exact readBitsGo_props bit 1 fuel 0 0 a c
  | DriverOp.wBit a bit v fuel =>
    simp only [runOp, EEPROM25LC040A.writeBit, EEPROM25LC040A.writeBits]
    split
    · exact ⟨rfl, fun q => rfl, rfl⟩
    · exact writeBitsGo_props bit 1 _ fuel 0 a c
  | DriverOp.rBits a off n fuel =>
    simp only [runOp, EEPROM25LC040A.readBits]
    split
    · exact ⟨rfl, fun q => rfl, rfl⟩
    · exact readBitsGo_props off n fuel 0 0 a c
  | DriverOp.wBits a off n v fuel =>
    simp only [runOp, EEPROM25LC040A.writeBits]
    split
    · exact ⟨rfl, fun q => rfl, rfl⟩
    · exact writeBitsGo_props off n v fuel 0 a c

theorem runOps_props (ops : List DriverOp) :
    ∀ (c : Chip),
      (framesAcc (runOps ops c).2 none).2 = none ∧
      (∀ q, wrenBeforeWrite q (frames (runOps ops c).2) = true) ∧
      csRun (runOps ops c).2 false = some false := by
  induction ops with
  | nil => intro c; exact ⟨rfl, fun q => rfl, rfl⟩
  | cons op rest ih =>
    intro c
    obtain ⟨h1, h2, h3⟩ := runOp_props op c
    obtain ⟨g1, g2, g3⟩ := ih (runOp op c).1
    simp only [runOps]
    exact ⟨P1_append _ _ h1 g1, P2_append _ _ h1 h2 g2, P3_append _ _ h3 g3⟩

/-! Claim theorems: C8 and C10. -/

/-- C8: in the command trace produced by any sequence of public driver
calls, a WRITE (0x02) command frame is never issued without a complete
write-enable (WREN, 0x06) frame immediately preceding it: `writeByte`
issues WREN before its WRITE, and `writeArray` issues a fresh WREN before
the WRITE of every page chunk. -/
theorem C8_wren_immediately_before_write (ops : List DriverOp) (c : Chip) :
    wrenBeforeWrite none (frames (runOps ops c).2) = true :=
  (runOps_props ops c).2.1 none

/-- C10: every public operation keeps chip-select bracketing balanced:
walking the trace of any sequence of public driver calls, chip select is
never asserted while already asserted, never deasserted (and no byte is
transferred) while deasserted, and it is deasserted again when each call
returns. -/
theorem C10_cs_bracketing_balanced (ops : List DriverOp) (c : Chip) :
    csRun (runOps ops c).2 false = some false :=
  (runOps_props ops c).2.2

/-! Projection of the bit-walking loops onto the device memory map. -/

theorem readBitsGo_pure (off n : Nat) :
    ∀ (fuel result br addr : Nat) (c : Chip),
      (EEPROM25LC040A.readBitsGo off n fuel result br addr c).1 =
        rdGo c.mem off n fuel result br addr ∧
      (EEPROM25LC040A.readBitsGo off n fuel result br addr c).2.1.mem = c.mem := by
  intro fuel
  induction fuel with
  | zero =>
    intro result br addr c
    rw [EEPROM25LC040A.readBitsGo, rdGo]
    split
    · exact ⟨rfl, rfl⟩
    · exact ⟨rfl, rfl⟩
  | succ m ih =>
    intro result br addr c
    rw [EEPROM25LC040A.readBitsGo, rdGo]
    split
    · simp only [readByte_eq]
      exact ⟨(ih _ _ _ _).1, (ih _ _ _ _).2⟩
    · exact ⟨rfl, rfl⟩

theorem rdGo_isSome (mem : Nat → Nat) (off n : Nat) :
    ∀ (fuel result br addr : Nat),
      (rdGo mem off n fuel result br addr).isSome = bitsDone off n fuel br := by
  intro fuel
  induction fuel with
  | zero =>
    intro result br addr
    rw [rdGo, bitsDone]
    split
    · rfl
    · rfl
  | succ m ih =>
    intro result br addr
    rw [rdGo, bitsDone]
    split
    · exact ih _ _ _
    · rfl

theorem writeBitsGo_pure (off n v : Nat) :
    ∀ (fuel bw addr : Nat) (c : Chip),
      (EEPROM25LC040A.writeBitsGo off n v fuel bw addr c).2.1.mem =
        wrGo off n v fuel bw addr c.mem ∧
      (EEPROM25LC040A.writeBitsGo off n v fuel bw addr c).1 = bitsDone off n fuel bw := by
  intro fuel
  induction fuel with
  | zero =>
    intro bw addr c
    rw [EEPROM25LC040A.writeBitsGo, wrGo, bitsDone]
    split
    · exact ⟨rfl, rfl⟩
    · exact ⟨rfl, rfl⟩
  | succ m ih =>
    intro bw addr c
    rw [EEPROM25LC040A.writeBitsGo, wrGo, bitsDone]
    split
    · simp only [readByte_eq, writeByte_eq]
      exact ⟨(ih _ _ _).1, (ih _ _ _).2⟩
    · exact ⟨rfl, rfl⟩

theorem bitsDone_tail (off n : Nat) (hn : n ≤ 32) :
    ∀ (fuel bw : Nat), bw ≠ 0 → bw ≤ n → (n - bw + 7) / 8 ≤ fuel →
      bitsDone off n fuel bw = true := by
  intro fuel
  induction fuel with
  | zero =>
    intro bw hbw hle hfuel
    rw [bitsDone]
    split
    · omega
    · rfl
  | succ m ih =>
    intro bw hbw hle hfuel
    rw [bitsDone]
    by_cases hlt : bw < n
    · rw [if_pos hlt, if_neg hbw]
      exact ih _ (by omega) (by omega) (by omega)
    · rw [if_neg hlt]

theorem bitsDone_head (off n : Nat) (hoff : off < 8) (hn1 : 1 ≤ n) (hn : n ≤ 32) :
    bitsDone off n 5 0 = true := by
  rw [bitsDone, if_pos (show (0 : Nat) < n by omega)]
  norm_num
  by_cases hend : min (8 - off) n < n
  · exact bitsDone_tail off n hn 4 _ (by omega) (by omega) (by omega)
  · rw [bitsDone, if_neg hend]

theorem bitsDone_stuck (n : Nat) (hn1 : 1 ≤ n) :
    ∀ fuel, bitsDone 8 n fuel 0 = false := by
  intro fuel
  induction fuel with
  | zero =>
    rw [bitsDone]
    rw [if_pos (by omega)]
  | succ m ih =>
    rw [bitsDone]
    rw [if_pos (by omega)]
    simpa using ih

/-! Claim theorems: C9. -/

/-- C9: for every address, bitCount in 1..32 and bitOffset in 0..7, the
byte-walking loops of `readBits` and `writeBits` terminate within 5
iterations (fuel 5 suffices); this depends on `bitOffset < 8`: at
`bitOffset = 8` the first iteration consumes zero bits and the loop never
finishes, for any amount of fuel. -/
theorem C9_bit_loops_terminate (a off n v fuel : Nat) (c : Chip)
    (hoff : off < 8) (hn1 : 1 ≤ n) (hn32 : n ≤ 32) :
    (EEPROM25LC040A.readBits a off n 5 c).1.isSome = true ∧
    (EEPROM25LC040A.writeBits a off n v 5 c).1 = true ∧
    (EEPROM25LC040A.readBits a 8 n fuel c).1 = none ∧
    (EEPROM25LC040A.writeBits a 8 n v fuel c).1 = false := by
  have hguard : ¬(n = 0 ∨ 32 < n) := by omega
  refine ⟨?_, ?_, ?_, ?_⟩
  · rw [EEPROM25LC040A.readBits, if_neg hguard, (readBitsGo_pure off n 5 0 0 a c).1,
      rdGo_isSome]
    exact bitsDone_head off n hoff hn1 hn32
  · rw [EEPROM25LC040A.writeBits, if_neg hguard, (writeBitsGo_pure off n v 5 0 a c).2]
    exact bitsDone_head off n hoff hn1 hn32
  · rw [EEPROM25LC040A.readBits, if_neg hguard]
    have h := (readBitsGo_pure 8 n fuel 0 0 a c).1
    rw [h]
    have hs := rdGo_isSome c.mem 8 n fuel 0 0 a
    rw [bitsDone_stuck n hn1 fuel] at hs
    exact Option.not_isSome_iff_eq_none.mp (by rw [hs]; exact Bool.false_ne_true)
  · rw [EEPROM25LC040A.writeBits, if_neg hguard, (writeBitsGo_pure 8 n v fuel 0 a c).2]
    exact bitsDone_stuck n hn1 fuel

/-- Witness for C9 at address 3, bitOffset 7, bitCount 20. -/
theorem C9_bit_loops_terminate_witness :
    (EEPROM25LC040A.readBits 3 7 20 5 (chip0 1)).1.isSome = true ∧
    (EEPROM25LC040A.writeBits 3 7 20 12345 5 (chip0 1)).1 = true ∧
    (EEPROM25LC040A.readBits 3 8 20 17 (chip0 1)).1 = none ∧
    (EEPROM25LC040A.writeBits 3 8 20 12345 17 (chip0 1)).1 = false :=
  C9_bit_loops_terminate 3 7 20 12345 17 (chip0 1) (by omega) (by omega) (by omega)

/-! Bitwise identities used by the bit-field round-trip and frame claims. -/

theorem and_mask_mod (x m N : Nat) (hm : m < 2 ^ N) : (x % 2 ^ N) &&& m = x &&& m := by
  apply Nat.eq_of_testBit_eq
  intro j
  simp only [Nat.testBit_and, Nat.testBit_mod_two_pow]
  by_cases hj : j < N
  · simp [hj]
  · have hmj : m.testBit j = false :=
      Nat.testBit_eq_false_of_lt
        (lt_of_lt_of_le hm (Nat.pow_le_pow_right (by omega) (by omega)))
    simp [hj, hmj]

theorem shiftLeft_or_distrib (x y s : Nat) : (x ||| y) <<< s = x <<< s ||| y <<< s := by
  apply Nat.eq_of_testBit_eq
  intro j
  simp only [Nat.testBit_shiftLeft, Nat.testBit_or]
  by_cases hs : s ≤ j <;> simp [hs, Bool.and_or_distrib_left]

theorem shiftLeft_lt_pow (x s b N : Nat) (hx : x < 2 ^ b) (hsb : b + s ≤ N) :
    x <<< s < 2 ^ N := by
  rw [Nat.shiftLeft_eq]
  calc x * 2 ^ s < 2 ^ b * 2 ^ s :=
        Nat.mul_lt_mul_of_pos_right hx (Nat.two_pow_pos s)
    _ = 2 ^ (b + s) := (Nat.pow_add 2 b s).symm
    _ ≤ 2 ^ N := Nat.pow_le_pow_right (by omega) hsb

theorem mask_lt (b s : Nat) (h : b + s ≤ 8) : (2 ^ b - 1) <<< s < 256 := by
  have h1 : 2 ^ b - 1 < 2 ^ b := by
    have := Nat.two_pow_pos b
    omega
  exact shiftLeft_lt_pow _ _ _ 8 h1 h

theorem maskInsert_extract (x y m : Nat) (hm : m < 256) :
    ((x &&& (255 ^^^ m)) ||| (y &&& m)) &&& m = y &&& m := by
  apply Nat.eq_of_testBit_eq
  intro j
  simp only [Nat.testBit_and, Nat.testBit_or, Nat.testBit_xor]
  by_cases hmj : m.testBit j
  · have hj : j < 8 := by
      by_contra hj8
      have hf : m.testBit j = false := by
        apply Nat.testBit_eq_false_of_lt
        calc m < 256 := hm
          _ = 2 ^ 8 := by norm_num
          _ ≤ 2 ^ j := Nat.pow_le_pow_right (by omega) (by omega)
      simp [hf] at hmj
    have h255 : (255 : Nat).testBit j = true := by
      rw [show (255 : Nat) = 2 ^ 8 - 1 by norm_num, Nat.testBit_two_pow_sub_one]
      simpa using hj
    simp [hmj, h255]
  · simp [hmj]

theorem maskInsert_keep (x y m : Nat) (j : Nat) (hj : j < 8) (hmj : m.testBit j = false) :
    ((x &&& (255 ^^^ m)) ||| (y &&& m)).testBit j = x.testBit j := by
  have h255 : (255 : Nat).testBit j = true := by
    rw [show (255 : Nat) = 2 ^ 8 - 1 by norm_num, Nat.testBit_two_pow_sub_one]
    simpa using hj
  simp [Nat.testBit_and, Nat.testBit_or, Nat.testBit_xor, hmj, h255]

theorem or_shift_combine (v b k : Nat) :
    (v &&& (2 ^ b - 1)) ||| (((v >>> b) &&& (2 ^ k - 1)) <<< b) =
      v &&& (2 ^ (b + k) - 1) := by
  apply Nat.eq_of_testBit_eq
  intro j
  simp only [Nat.testBit_or, Nat.testBit_and, Nat.testBit_shiftLeft, Nat.testBit_shiftRight,
    Nat.testBit_two_pow_sub_one]
  by_cases hjb : j < b
  · have h1 : ¬(b ≤ j) := by omega
    have h2 : j < b + k := by omega
    simp [hjb, h1, h2]
  · have hbj : b ≤ j := by omega
    have hj : b + (j - b) = j := by omega
    simp only [hjb, hbj, hj]
    by_cases hjk : j - b < k
    · simp [hjk, show j < b + k by omega]
    · simp [hjk, show ¬(j < b + k) by omega]

theorem extract_shifted (v b s : Nat) :
    ((v <<< s) &&& ((2 ^ b - 1) <<< s)) >>> s = v &&& (2 ^ b - 1) := by
  apply Nat.eq_of_testBit_eq
  intro j
  simp only [Nat.testBit_shiftRight, Nat.testBit_and, Nat.testBit_shiftLeft,
    Nat.testBit_two_pow_sub_one]
  have h : s + j - s = j := by omega
  simp [h, Nat.le_add_right]

theorem mod512_ne (x d : Nat) (h1 : 1 ≤ d) (h2 : d < 512) : x % 512 ≠ (x + d) % 512 := by
  omega

/-! Characterization of the memory-level read loop. -/

theorem rdGo_step (mem : Nat → Nat) (off n m result bw addr : Nat)
    (hbw : bw ≠ 0) (hlt : bw < n) (hn : n ≤ 32) :
    rdGo mem off n (m + 1) result bw addr =
      rdGo mem off n m
        (result ||| (mem (addr % 512) &&& (2 ^ min 8 (n - bw) - 1)) <<< bw)
        (bw + min 8 (n - bw)) (addr + 1) := by
  have hb8 : min 8 (n - bw) ≤ 8 := Nat.min_le_left _ _
  have hpow : (2 : Nat) ^ min 8 (n - bw) ≤ 2 ^ 8 := Nat.pow_le_pow_right (by omega) hb8
  have hpos := Nat.two_pow_pos (min 8 (n - bw))
  have hmask : (2 ^ min 8 (n - bw) - 1) % 256 = 2 ^ min 8 (n - bw) - 1 := by
    apply Nat.mod_eq_of_lt
    norm_num at hpow
    omega
  have hval : mem (addr % 512) &&& (2 ^ min 8 (n - bw) - 1) < 2 ^ min 8 (n - bw) := by
    have hle : mem (addr % 512) &&& (2 ^ min 8 (n - bw) - 1) ≤ 2 ^ min 8 (n - bw) - 1 :=
      Nat.and_le_right
    omega
  have hshift : ((mem (addr % 512) &&& (2 ^ min 8 (n - bw) - 1)) <<< bw) % 2 ^ 32 =
      (mem (addr % 512) &&& (2 ^ min 8 (n - bw) - 1)) <<< bw :=
    Nat.mod_eq_of_lt (shiftLeft_lt_pow _ _ (min 8 (n - bw)) 32 hval (by omega))
  rw [rdGo, if_pos hlt, if_neg hbw]
  simp only [Nat.sub_zero, Nat.shiftRight_zero, Nat.shiftLeft_zero, Nat.one_shiftLeft]
  rw [hmask, hshift]

theorem rdGo_exit (mem : Nat → Nat) (off n fuel result bw addr : Nat) (h : ¬bw < n) :
    rdGo mem off n fuel result bw addr = some result := by
  cases fuel with
  | zero => rw [rdGo, if_neg h]
  | succ m => rw [rdGo, if_neg h]

theorem memBits_zero (mem : Nat → Nat) (addr : Nat) : memBits mem addr 0 = 0 := by
  simp [memBits]

theorem rdGo_tail (mem : Nat → Nat) (off n : Nat) (hn : n ≤ 32) :
    ∀ (fuel bw addr result : Nat), bw ≠ 0 → bw ≤ n → (n - bw + 7) / 8 ≤ fuel →
      rdGo mem off n fuel result bw addr =
        some (result ||| memBits mem addr (n - bw) <<< bw) := by
  intro fuel
  induction fuel with
  | zero =>
    intro bw addr result hbw hle hfuel
    rw [rdGo_exit mem off n 0 result bw addr (by omega)]
    have hz : n - bw = 0 := by omega
    rw [hz, memBits_zero]
    simp
  | succ m ih =>
    intro bw addr result hbw hle hfuel
    by_cases hlt : bw < n
    · rw [rdGo_step mem off n m result bw addr hbw hlt hn]
      rw [ih _ _ _ (by omega) (by omega) (by omega)]
      congr 1
      conv_rhs => rw [memBits]
      rw [dif_neg (show ¬(n - bw = 0) by omega)]
      by_cases hk : 8 ≤ n - bw
      · have hb : min 8 (n - bw) = 8 := by omega
        rw [hb]
        have hk2 : n - (bw + 8) = n - bw - 8 := by omega
        rw [hk2]
        rw [shiftLeft_or_distrib, ← Nat.shiftLeft_add, Nat.or_assoc, Nat.add_comm bw 8]
      · have hb : min 8 (n - bw) = n - bw := by omega
        rw [hb]
        have hz : n - (bw + (n - bw)) = 0 := by omega
        rw [hz]
        have hz8 : n - bw - 8 = 0 := by omega
        rw [hz8, memBits_zero]
        simp [Nat.zero_shiftLeft, Nat.or_zero, Nat.or_assoc]
    · rw [rdGo_exit mem off n (m + 1) result bw addr hlt]
      have hz : n - bw = 0 := by omega
      rw [hz, memBits_zero]
      simp

theorem rdGo_full (mem : Nat → Nat) (off n fuel a : Nat)
    (hoff : off < 8) (hn1 : 1 ≤ n) (hn : n ≤ 32) (hfuel : 5 ≤ fuel) :
    rdGo mem off n fuel 0 0 a =
      some (((mem (a % 512) &&& ((2 ^ min (8 - off) n - 1) <<< off)) >>> off) |||
        memBits mem (a + 1) (n - min (8 - off) n) <<< min (8 - off) n) := by
  obtain ⟨m, rfl⟩ : ∃ m, fuel = m + 1 := ⟨fuel - 1, by omega⟩
  have hb1le : min (8 - off) n + off ≤ 8 := by omega
  have hmask : ((2 ^ min (8 - off) n - 1) <<< off) % 256 = (2 ^ min (8 - off) n - 1) <<< off :=
    Nat.mod_eq_of_lt (mask_lt _ _ hb1le)
  have hmlt : (2 ^ min (8 - off) n - 1) <<< off < 256 := mask_lt _ _ hb1le
  have hval : (mem (a % 512) &&& ((2 ^ min (8 - off) n - 1) <<< off)) >>> off < 2 ^ 32 := by
    have h1 : mem (a % 512) &&& ((2 ^ min (8 - off) n - 1) <<< off) ≤
        (2 ^ min (8 - off) n - 1) <<< off := Nat.and_le_right
    have h2 : (mem (a % 512) &&& ((2 ^ min (8 - off) n - 1) <<< off)) >>> off ≤
        mem (a % 512) &&& ((2 ^ min (8 - off) n - 1) <<< off) := by
      rw [Nat.shiftRight_eq_div_pow]
      exact Nat.div_le_self _ _
    calc (mem (a % 512) &&& ((2 ^ min (8 - off) n - 1) <<< off)) >>> off ≤
        mem (a % 512) &&& ((2 ^ min (8 - off) n - 1) <<< off) := h2
      _ < 256 := by omega
      _ < 2 ^ 32 := by norm_num
  rw [rdGo, if_pos (show (0 : Nat) < n by omega), if_pos rfl]
  simp only [Nat.sub_zero, Nat.shiftLeft_zero, Nat.one_shiftLeft, Nat.zero_or, Nat.zero_add]
  rw [hmask, Nat.mod_eq_of_lt hval]
  by_cases hb1n : min (8 - off) n < n
  · rw [rdGo_tail mem off n hn m _ _ _ (by omega) (by omega) (by omega)]
  · have hb1 : min (8 - off) n = n := by omega
    rw [hb1, rdGo_exit mem off n m _ n (a + 1) (by omega)]
    have hz : n - n = 0 := by omega
    rw [hz, memBits_zero]
    simp

/-! Characterization of the memory-level write loop. -/

theorem byte2_lt (x v2 m : Nat) (hm : m < 256) :
    (x &&& (255 ^^^ m)) ||| (v2 &&& m) < 256 := by
  have hx : (255 : Nat) ^^^ m < 2 ^ 8 :=
    Nat.xor_lt_two_pow (by decide) (by norm_num; omega)
  have h1 : x &&& (255 ^^^ m) < 2 ^ 8 := by
    have hle : x &&& (255 ^^^ m) ≤ 255 ^^^ m := Nat.and_le_right
    omega
  have h2 : v2 &&& m < 2 ^ 8 := by
    have hle : v2 &&& m ≤ m := Nat.and_le_right
    norm_num
    omega
  have h3 := Nat.or_lt_two_pow h1 h2
  norm_num at h3
  omega

theorem wrGo_exit (off n v fuel bw addr : Nat) (mem : Nat → Nat) (h : ¬bw < n) :
    wrGo off n v fuel bw addr mem = mem := by
  cases fuel with
  | zero => rw [wrGo, if_neg h]
  | succ m => rw [wrGo, if_neg h]

theorem wrBytes_zero (v addr : Nat) (mem : Nat → Nat) : wrBytes v addr 0 mem = mem := by
  rw [wrBytes]
  simp

theorem wrGo_step (off n v m bw addr : Nat) (mem : Nat → Nat)
    (hbw : bw ≠ 0) (hlt : bw < n) (hn : n ≤ 32) :
    wrGo off n v (m + 1) bw addr mem =
      wrGo off n v m (bw + min 8 (n - bw)) (addr + 1)
        (updMem mem (addr % 512)
          ((mem (addr % 512) &&& (255 ^^^ (2 ^ min 8 (n - bw) - 1))) |||
            ((v >>> bw) &&& (2 ^ min 8 (n - bw) - 1)))) := by
  have hb8 : min 8 (n - bw) ≤ 8 := Nat.min_le_left _ _
  have hpow : (2 : Nat) ^ min 8 (n - bw) ≤ 2 ^ 8 := Nat.pow_le_pow_right (by omega) hb8
  have hpos := Nat.two_pow_pos (min 8 (n - bw))
  have hmlt : 2 ^ min 8 (n - bw) - 1 < 256 := by
    norm_num at hpow
    omega
  have hmask : (2 ^ min 8 (n - bw) - 1) % 256 = 2 ^ min 8 (n - bw) - 1 :=
    Nat.mod_eq_of_lt hmlt
  have hand : ((v >>> bw) % 2 ^ 32) &&& (2 ^ min 8 (n - bw) - 1) =
      (v >>> bw) &&& (2 ^ min 8 (n - bw) - 1) :=
    and_mask_mod _ _ 32 (by omega)
  have hb2 : ((mem (addr % 512) &&& (255 ^^^ (2 ^ min 8 (n - bw) - 1))) |||
      ((v >>> bw) &&& (2 ^ min 8 (n - bw) - 1))) % 256 =
      (mem (addr % 512) &&& (255 ^^^ (2 ^ min 8 (n - bw) - 1))) |||
        ((v >>> bw) &&& (2 ^ min 8 (n - bw) - 1)) :=
    Nat.mod_eq_of_lt (byte2_lt _ _ _ hmlt)
  rw [wrGo, if_pos hlt, if_neg hbw]
  simp only [Nat.sub_zero, Nat.shiftLeft_zero, Nat.one_shiftLeft]
  rw [hmask, hand, hb2]

theorem wrGo_tail (off n v : Nat) (hn : n ≤ 32) :
    ∀ (fuel bw addr : Nat) (mem : Nat → Nat), bw ≠ 0 → bw ≤ n → (n - bw + 7) / 8 ≤ fuel →
      wrGo off n v fuel bw addr mem = wrBytes (v >>> bw) addr (n - bw) mem := by
  intro fuel
  induction fuel with
  | zero =>
    intro bw addr mem hbw hle hfuel
    have hz : n - bw = 0 := by omega
    rw [wrGo_exit off n v 0 bw addr mem (by omega), hz, wrBytes_zero]
  | succ m ih =>
    intro bw addr mem hbw hle hfuel
    by_cases hlt : bw < n
    · rw [wrGo_step off n v m bw addr mem hbw hlt hn]
      rw [ih _ _ _ (by omega) (by omega) (by omega)]
      conv_rhs => rw [wrBytes]
      rw [dif_neg (show ¬(n - bw = 0) by omega)]
      by_cases hk : 8 ≤ n - bw
      · have hb : min 8 (n - bw) = 8 := by omega
        rw [hb]
        have hk2 : n - (bw + 8) = n - bw - 8 := by omega
        rw [hk2, ← Nat.shiftRight_add]
      · have hb : min 8 (n - bw) = n - bw := by omega
        rw [hb]
        have hz1 : n - (bw + (n - bw)) = 0 := by omega
        have hz2 : n - bw - 8 = 0 := by omega
        rw [hz1, hz2, wrBytes_zero, wrBytes_zero]
    · rw [wrGo_exit off n v (m + 1) bw addr mem hlt]
      have hz : n - bw = 0 := by omega
      rw [hz, wrBytes_zero]

theorem wrGo_full (off n v fuel a : Nat) (mem : Nat → Nat)
    (hoff : off < 8) (hn1 : 1 ≤ n) (hn : n ≤ 32) (hfuel : 5 ≤ fuel) :
    wrGo off n v fuel 0 a mem =
      wrBytes (v >>> min (8 - off) n) (a + 1) (n - min (8 - off) n)
        (updMem mem (a % 512)
          ((mem (a % 512) &&& (255 ^^^ ((2 ^ min (8 - off) n - 1) <<< off))) |||
            ((v <<< off) &&& ((2 ^ min (8 - off) n - 1) <<< off)))) := by
  obtain ⟨m, rfl⟩ : ∃ m, fuel = m + 1 := ⟨fuel - 1, by omega⟩
  have hb1le : min (8 - off) n + off ≤ 8 := by omega
  have hmlt : (2 ^ min (8 - off) n - 1) <<< off < 256 := mask_lt _ _ hb1le
  rw [wrGo, if_pos (show (0 : Nat) < n by omega), if_pos rfl]
  simp only [Nat.sub_zero, Nat.shiftRight_zero, Nat.one_shiftLeft, Nat.zero_add]
  rw [Nat.mod_eq_of_lt hmlt]
  rw [and_mask_mod (v <<< off) _ 32 (by omega)]
  rw [Nat.mod_eq_of_lt (byte2_lt _ _ _ hmlt)]
  by_cases hb1n : min (8 - off) n < n
  · rw [wrGo_tail off n v hn m _ _ _ (by omega) (by omega) (by omega)]
  · have hb1 : min (8 - off) n = n := by omega
    rw [hb1, wrGo_exit off n v m n (a + 1) _ (by omega)]
    have hz : n - n = 0 := by omega
    rw [hz, wrBytes_zero]

theorem wrBytes_frame :
    ∀ (k v addr : Nat) (mem : Nat → Nat) (i : Nat),
      (∀ t, t < (k + 7) / 8 → i ≠ (addr + t) % 512) →
      wrBytes v addr k mem i = mem i := by
  intro k
  induction k using Nat.strong_induction_on with
  | _ k ih =>
    intro v addr mem i hi
    by_cases h0 : k = 0
    · subst h0
      rw [wrBytes_zero]
    · rw [wrBytes, dif_neg h0]
      rw [ih (k - 8) (by omega) _ _ _ _ ?_]
      · have hne : i ≠ addr % 512 := by
          have h := hi 0 (by omega)
          simpa using h
        simp only [updMem]
        rw [if_neg hne]
      · intro t ht
        have h := hi (t + 1) (by omega)
        rw [show addr + (t + 1) = addr + 1 + t from by omega] at h
        exact h

theorem wrBytes_cell :
    ∀ (k : Nat), k ≤ 32 → ∀ (v addr : Nat) (mem : Nat → Nat) (t : Nat),
      t < (k + 7) / 8 →
      wrBytes v addr k mem ((addr + t) % 512) =
        ((mem ((addr + t) % 512) &&& (255 ^^^ (2 ^ min 8 (k - 8 * t) - 1))) |||
          ((v >>> (8 * t)) &&& (2 ^ min 8 (k - 8 * t) - 1))) := by
  intro k
  induction k using Nat.strong_induction_on with
  | _ k ih =>
    intro hk32 v addr mem t ht
    have h0 : k ≠ 0 := by omega
    rw [wrBytes, dif_neg h0]
    cases t with
    | zero =>
      rw [wrBytes_frame (k - 8) _ _ _ _ ?_]
      · simp [Nat.add_zero, Nat.mul_zero, Nat.sub_zero, Nat.shiftRight_zero, updMem]
      · intro u hu
        have hd : 1 + u < 512 := by omega
        have h := mod512_ne addr (1 + u) (by omega) hd
        rw [show addr + (1 + u) = addr + 1 + u from by omega] at h
        simpa using h
    | succ u =>
      rw [show addr + (u + 1) = addr + 1 + u from by omega]
      rw [ih (k - 8) (by omega) (by omega) (v >>> 8) (addr + 1) _ u (by omega)]
      have hne : (addr + 1 + u) % 512 ≠ addr % 512 := by
        have hd : 1 + u < 512 := by omega
        have h := mod512_ne addr (1 + u) (by omega) hd
        rw [show addr + (1 + u) = addr + 1 + u from by omega] at h
        exact h.symm
      simp only [updMem]
      rw [if_neg hne]
      rw [← Nat.shiftRight_add]
      rw [show 8 + 8 * u = 8 * (u + 1) from by omega]
      rw [show k - 8 - 8 * u = k - 8 * (u + 1) from by omega]

theorem memBits_wrBytes :
    ∀ (k : Nat), k ≤ 32 → ∀ (v addr : Nat) (mem : Nat → Nat),
      memBits (wrBytes v addr k mem) addr k = v &&& (2 ^ k - 1) := by
  intro k
  induction k using Nat.strong_induction_on with
  | _ k ih =>
    intro hk32 v addr mem
    by_cases h0 : k = 0
    · subst h0
      rw [memBits_zero]
      simp
    · conv_lhs => rw [memBits]
      rw [dif_neg h0]
      have hcell := wrBytes_cell k hk32 v addr mem 0 (by omega)
      simp only [Nat.add_zero, Nat.mul_zero, Nat.sub_zero, Nat.shiftRight_zero] at hcell
      rw [hcell]
      have hb8 : min 8 k ≤ 8 := Nat.min_le_left _ _
      have hpow : (2 : Nat) ^ min 8 k ≤ 2 ^ 8 := Nat.pow_le_pow_right (by omega) hb8
      have hpos := Nat.two_pow_pos (min 8 k)
      rw [maskInsert_extract _ _ _ (by norm_num at hpow ⊢; omega)]
      conv_lhs => rw [wrBytes, dif_neg h0]
      rw [ih (k - 8) (by omega) (by omega) (v >>> 8) (addr + 1) _]
      by_cases hk : 8 ≤ k
      · have hb : min 8 k = 8 := by omega
        rw [hb, or_shift_combine]
        rw [show 8 + (k - 8) = k from by omega]
      · have hb : min 8 k = k := by omega
        have hz : k - 8 = 0 := by omega
        rw [hb, hz]
        simp

theorem wrFull_cellA (off n v a : Nat) (mem : Nat → Nat)
    (hoff : off < 8) (hn1 : 1 ≤ n) (hn32 : n ≤ 32) :
    wrBytes (v >>> min (8 - off) n) (a + 1) (n - min (8 - off) n)
      (updMem mem (a % 512)
        ((mem (a % 512) &&& (255 ^^^ ((2 ^ min (8 - off) n - 1) <<< off))) |||
          ((v <<< off) &&& ((2 ^ min (8 - off) n - 1) <<< off)))) (a % 512) =
      (mem (a % 512) &&& (255 ^^^ ((2 ^ min (8 - off) n - 1) <<< off))) |||
        ((v <<< off) &&& ((2 ^ min (8 - off) n - 1) <<< off)) := by
  rw [wrBytes_frame _ _ _ _ _ ?_]
  · simp [updMem]
  · intro t ht
    have hd : 1 + t < 512 := by omega
    have h := mod512_ne a (1 + t) (by omega) hd
    rw [show a + (1 + t) = a + 1 + t from by omega] at h
    exact h

/-! Claim theorems: C3. -/

/-- C3: for every address, bitCount `n` in 1..32, bitOffset in 0..7 and
32-bit value, executing `writeBits` and then `readBits` over the same bit
range returns `value &&& ((1 <<< n) - 1)`: the low `n` bits of `value`
round-trip and any higher bits are masked off.  The fuel hypotheses embed
the loop-termination bound established in C9. -/
theorem C3_writeBits_readBits_roundtrip (a off n value f1 f2 : Nat) (c : Chip)
    (hoff : off < 8) (hn1 : 1 ≤ n) (hn32 : n ≤ 32) (hf1 : 5 ≤ f1) (hf2 : 5 ≤ f2) :
    (EEPROM25LC040A.readBits a off n f2
        (EEPROM25LC040A.writeBits a off n value f1 c).2.1).1 =
      some (value &&& ((1 <<< n) - 1)) := by
  have hguard : ¬(n = 0 ∨ 32 < n) := by omega
  have hb1le : min (8 - off) n + off ≤ 8 := by omega
  have hmlt : (2 ^ min (8 - off) n - 1) <<< off < 256 := mask_lt _ _ hb1le
  rw [EEPROM25LC040A.readBits, if_neg hguard, EEPROM25LC040A.writeBits, if_neg hguard]
  rw [(readBitsGo_pure off n f2 0 0 a _).1]
  rw [(writeBitsGo_pure off n value f1 0 a c).1]
  rw [wrGo_full off n value f1 a c.mem hoff hn1 hn32 hf1]
  rw [rdGo_full _ off n f2 a hoff hn1 hn32 hf2]
  rw [wrFull_cellA off n value a c.mem hoff hn1 hn32]
  rw [maskInsert_extract _ _ _ hmlt, extract_shifted]
  rw [memBits_wrBytes (n - min (8 - off) n) (by omega) _ _ _]
  rw [or_shift_combine]
  rw [show min (8 - off) n + (n - min (8 - off) n) = n from by omega]
  rw [Nat.one_shiftLeft]

/-- Witness for C3 at address 5, bitOffset 3, bitCount 20. -/
theorem C3_writeBits_readBits_roundtrip_witness :
    (EEPROM25LC040A.readBits 5 3 20 9
        (EEPROM25LC040A.writeBits 5 3 20 0xFABCDE 9 (chip0 1)).2.1).1 =
      some 703710 :=
  (C3_writeBits_readBits_roundtrip 5 3 20 0xFABCDE 9 9 (chip0 1)
    (by omega) (by omega) (by omega) (by omega) (by omega)).trans (by decide)

/-! Claim theorems: C4. -/

/-- C4: for every address, bitCount `n` in 1..32, bitOffset in 0..7 and
value, `writeBits` leaves every memory bit outside the bit span
[bitOffset, bitOffset + n) counted from the starting address at its
pre-write value: all bytes outside the spanned `spanBytes` cells are
untouched, and within the spanned cells every bit position outside the
span keeps its previous value. -/
theorem C4_writeBits_frame_effect (a off n value fuel : Nat) (c : Chip)
    (hoff : off < 8) (hn1 : 1 ≤ n) (hn32 : n ≤ 32) (hfuel : 5 ≤ fuel) :
    (∀ i, (∀ t, t < spanBytes off n → i ≠ (a + t) % 512) →
      (EEPROM25LC040A.writeBits a off n value fuel c).2.1.mem i = c.mem i) ∧
    (∀ t j, t < spanBytes off n → j < 8 →
      ¬(off ≤ 8 * t + j ∧ 8 * t + j < off + n) →
      ((EEPROM25LC040A.writeBits a off n value fuel c).2.1.mem ((a + t) % 512)).testBit j =
        (c.mem ((a + t) % 512)).testBit j) := by
  have hguard : ¬(n = 0 ∨ 32 < n) := by omega
  have hspan : spanBytes off n = 1 + (n - min (8 - off) n + 7) / 8 := by
    simp only [spanBytes]
    omega
  rw [EEPROM25LC040A.writeBits, if_neg hguard]
  rw [(writeBitsGo_pure off n value fuel 0 a c).1]
  rw [wrGo_full off n value fuel a c.mem hoff hn1 hn32 hfuel]
  constructor
  · intro i hi
    rw [wrBytes_frame _ _ _ _ _ ?_]
    · have hne : i ≠ a % 512 := by
        have h := hi 0 (by omega)
        simpa using h
      simp only [updMem]
      rw [if_neg hne]
    · intro t ht
      have h := hi (t + 1) (by omega)
      rw [show a + (t + 1) = a + 1 + t from by omega] at h
      exact h
  · intro t j ht hj hout
    cases t with
    | zero =>
      simp only [Nat.mul_zero, Nat.zero_add] at hout
      simp only [Nat.add_zero]
      rw [wrFull_cellA off n value a c.mem hoff hn1 hn32]
      apply maskInsert_keep _ _ _ j hj
      simp only [Nat.testBit_shiftLeft, Nat.testBit_two_pow_sub_one]
      by_cases hoj : off ≤ j
      · have hnin : ¬(j - off < min (8 - off) n) := by omega
        simp [hoj, hnin]
      · simp [hoj]
    | succ u =>
      rw [show a + (u + 1) = a + 1 + u from by omega]
      rw [wrBytes_cell (n - min (8 - off) n) (by omega) _ (a + 1) _ u (by omega)]
      have hne : (a + 1 + u) % 512 ≠ a % 512 := by
        have h := mod512_ne a (1 + u) (by omega) (by omega)
        rw [show a + (1 + u) = a + 1 + u from by omega] at h
        exact h.symm
      simp only [updMem]
      rw [if_neg hne]
      apply maskInsert_keep _ _ _ j hj
      simp only [Nat.testBit_two_pow_sub_one]
      have hnin : ¬j < min 8 (n - min (8 - off) n - 8 * u) := by omega
      simp [hnin]

/-- Witness for C4: after a concrete 20-bit write at address 5, bit
offset 3, the byte at address 100 and bit 0 of the first spanned byte are
unchanged. -/
theorem C4_writeBits_frame_effect_witness :
    (EEPROM25LC040A.writeBits 5 3 20 0xFABCDE 9
        { chip0 1 with mem := fun i => (i * 37 + 11) % 256 }).2.1.mem 100 =
      ({ chip0 1 with mem := fun i => (i * 37 + 11) % 256 } : Chip).mem 100 ∧
    ((EEPROM25LC040A.writeBits 5 3 20 0xFABCDE 9
        { chip0 1 with mem := fun i => (i * 37 + 11) % 256 }).2.1.mem ((5 + 0) % 512)).testBit 0 =
      (({ chip0 1 with mem := fun i => (i * 37 + 11) % 256 } : Chip).mem ((5 + 0) % 512)).testBit 0 := by
  have h := C4_writeBits_frame_effect 5 3 20 0xFABCDE 9
    { chip0 1 with mem := fun i => (i * 37 + 11) % 256 }
    (by omega) (by omega) (by omega) (by omega)
  exact ⟨h.1 100 (by decide), h.2 0 0 (by decide) (by decide) (by decide)⟩

end EEPROMSPI

